import Mathlib

/-!
Verification of the Guided-Translator services against their specification.

Text is modelled as lists of characters.  JavaScript numbers that carry
PDF coordinates are modelled as rationals; integer quantities as naturals.
The stateful Gemini key-pool service is modelled by explicit state passing,
and the per-chunk retry loop by a function over the list of API outcomes.
-/

namespace GuidedTranslator

/-- Text is a list of characters (JS strings, ASCII fragment). -/
abbrev Str := List Char

/-- Whitespace characters recognised by trimming and by the regex class backslash-s
(ASCII fragment). -/
def isWS (c : Char) : Bool := c = ' ' || c = '\n' || c = '\t' || c = '\r'

/-- Left trim: drop leading whitespace (JS String.trim, left half). -/
def ltrim (s : Str) : Str := s.dropWhile isWS

/-- Right trim: drop trailing whitespace (JS String.trim, right half). -/
def rtrim (s : Str) : Str := (s.reverse.dropWhile isWS).reverse

/-- JS String.prototype.trim. -/
def trim (s : Str) : Str := rtrim (ltrim s)

/-- Token estimate from chunkManager.ts: Math.ceil(text.length / 4). -/
def estimateTokens (s : Str) : Nat := (s.length + 3) / 4

/-! ## Gemini service key-pool state (geminiService.ts lines 7-28) -/

/-- Module-level mutable state of geminiService.ts: the key pool KEY_POOL,
the index currentKeyIndex, and the key the active GoogleGenerativeAI client
was constructed with (modelling the genAI variable). -/
structure GeminiState where
  keyPool : List String
  currentKeyIndex : Nat
  activeClientKey : String
  deriving Repr, DecidableEq

/-- setApiKeys (geminiService.ts lines 12-19): replaces the pool and resets
index and client only when the given list is non-empty. -/
def setApiKeys (keys : List String) (st : GeminiState) : GeminiState :=
  if 0 < keys.length then
    { keyPool := keys, currentKeyIndex := 0, activeClientKey := keys.headD "" }
  else st

/-- rotateKey (geminiService.ts lines 21-28): refuses when the pool holds at
most one key; otherwise advances the index with wrap-around and rebuilds the
client from the new key. -/
def rotateKey (st : GeminiState) : Bool × GeminiState :=
  if st.keyPool.length ≤ 1 then (false, st)
  else
    let i := (st.currentKeyIndex + 1) % st.keyPool.length
    (true, { st with currentKeyIndex := i, activeClientKey := st.keyPool.getD i "" })

/-! ## translateChunk retry loop (geminiService.ts lines 46-129) -/

/-- Outcome of one model.generateContent attempt. -/
inductive ApiOutcome where
  | success (raw : String)
  | rateLimit
  | otherError (msg : String)
  deriving Repr, DecidableEq

/-- Status-update events observable through the onStatusUpdate callback of
translateChunk: a key switch or a backoff pause of the given delay in ms. -/
inductive TCEvent where
  | keySwitch (newIndex : Nat)
  | backoffWait (delayMs : Nat)
  deriving Repr, DecidableEq

/-- Result of the translateChunk loop. -/
inductive TCResult where
  | translated (raw : String)
  | failedRetries
  | failedOther (msg : String)
  | pending
  | unexpectedExit
  deriving Repr, DecidableEq

/-- maxRetries constant of translateChunk. -/
def maxRetries : Nat := 5

/-- baseDelay constant of translateChunk, in milliseconds. -/
def baseDelay : Nat := 3000

/-- Mutable loop variables of translateChunk: retries and keysTried. -/
structure RetryState where
  retries : Nat
  keysTried : Nat
  deriving Repr, DecidableEq

/-- The retry loop of translateChunk (geminiService.ts lines 57-128), driven
by the list of outcomes of successive generateContent attempts.  Returns the
loop result, the final key-pool state, and the emitted status events.
TCResult.pending models a run whose outcome script was exhausted while the
loop would still continue. -/
def tcRun (st : GeminiState) (rst : RetryState) : List ApiOutcome → TCResult × GeminiState × List TCEvent
  | [] => (TCResult.pending, st, [])
  | o :: rest =>
    if maxRetries < rst.retries then (TCResult.unexpectedExit, st, []) else
    match o with
    | ApiOutcome.success raw => (TCResult.translated raw, st, [])
    | ApiOutcome.otherError m => (TCResult.failedOther m, st, [])
    | ApiOutcome.rateLimit =>
      if rst.keysTried < st.keyPool.length then
        let r := rotateKey st
        if r.1 then
          let next := tcRun r.2 { rst with keysTried := rst.keysTried + 1 } rest
          (next.1, next.2.1, TCEvent.keySwitch r.2.currentKeyIndex :: next.2.2)
        else
          let retries1 := rst.retries + 1
          if maxRetries < retries1 then (TCResult.failedRetries, st, [])
          else
            let next := tcRun st { retries := retries1, keysTried := 0 } rest
            (next.1, next.2.1, TCEvent.backoffWait (baseDelay * retries1) :: next.2.2)
      else
        let retries1 := rst.retries + 1
        if maxRetries < retries1 then (TCResult.failedRetries, st, [])
        else
          let next := tcRun st { retries := retries1, keysTried := 0 } rest
          (next.1, next.2.1, TCEvent.backoffWait (baseDelay * retries1) :: next.2.2)

/-- Events of one rotation cycle: m successive key switches starting after
index idx in a pool of length len. -/
def cycleEvents (len : Nat) : Nat → Nat → List TCEvent
  | _, 0 => []
  | idx, m + 1 => TCEvent.keySwitch ((idx + 1) % len) :: cycleEvents len ((idx + 1) % len) m

/-- Number of key switches before the first backoff of an event trace, and
the key-switch counts of the later backoff-separated cycles. -/
def segRot : List TCEvent → Nat × List Nat
  | [] => (0, [])
  | TCEvent.keySwitch _ :: t => ((segRot t).1 + 1, (segRot t).2)
  | TCEvent.backoffWait _ :: t => (0, (segRot t).1 :: (segRot t).2)

/-! ## Glossary, chunks and term matching (types.ts, geminiService.ts) -/

/-- Glossary entry: an English term and its mandated Chinese translation. -/
structure GlossaryEntry where
  english : Str
  chinese : Str
  deriving Repr, DecidableEq

/-- Chunk type tags from types.ts. -/
inductive ChunkType where
  | heading
  | paragraph
  | list
  | table
  deriving Repr, DecidableEq

/-- Heading metadata of a chunk (types.ts Chunk.metadata). -/
structure ChunkMetadata where
  level : Option Nat
  heading : Option Str
  deriving Repr, DecidableEq

/-- Chunk record from types.ts. -/
structure Chunk where
  id : String
  text : Str
  position : Nat
  type : ChunkType
  metadata : ChunkMetadata
  deriving Repr, DecidableEq

/-- TermMatch record from types.ts. -/
structure TermMatch where
  english : Str
  chinese : Str
  positions : List Nat
  source : String
  deriving Repr, DecidableEq

/-- TranslatedChunk record from types.ts: a chunk with translation and
matched/new terms (the object-spread of the source chunk is the toChunk
field). -/
structure TranslatedChunk where
  toChunk : Chunk
  translation : Str
  matchedTerms : List TermMatch
  newTerms : List TermMatch
  deriving Repr, DecidableEq

/-- ASCII lowercasing of a string (JS toLowerCase on the ASCII fragment). -/
def toLowerStr (s : Str) : Str := s.map Char.toLower

/-- Word character of the JS regex metacharacter backslash-b: [A-Za-z0-9_]. -/
def isWordChar (c : Char) : Bool := c.isAlpha || c.isDigit || c = '_'

/-- Whether the character at index i of t is a word character (out of range
counts as non-word). -/
def isWordCharAt (t : Str) (i : Nat) : Bool :=
  match t.get? i with
  | some c => isWordChar c
  | none => false

/-- Word boundary of the JS regex metacharacter backslash-b at position i of
t: exactly one of the characters around the position is a word character. -/
def wbAt (t : Str) (i : Nat) : Bool :=
  isWordCharAt t i != (if i = 0 then false else isWordCharAt t (i - 1))

/-- Whether sub occurs literally in t starting at index i. -/
def listMatchAt (t sub : Str) (i : Nat) : Bool :=
  (t.drop i).take sub.length == sub

/-- Whether the identifyTermsInText pattern (word boundary, the lowercased
term, a literal space, word boundary) matches the lowercased text t at
index i.  The literal space comes from the template of geminiService.ts
line 205, whose pattern places a space between the escaped term and the
closing boundary. -/
def termPatternAt (t term : Str) (i : Nat) : Bool :=
  wbAt t i && listMatchAt t (term ++ [' ']) i && wbAt t (i + term.length + 1)

/-- Successive non-overlapping match positions of the term pattern in t,
scanning left to right as a JS global regex exec loop does, resuming after
the end of each match.  The fuel argument bounds the scan. -/
def findPosAux (t term : Str) : Nat → Nat → List Nat
  | _, 0 => []
  | i, fuel + 1 =>
    if t.length ≤ i then []
    else if termPatternAt t term i then i :: findPosAux t term (i + term.length + 1) fuel
    else findPosAux t term (i + 1) fuel

/-- All match positions of the term pattern in t. -/
def findPositions (t term : Str) : List Nat := findPosAux t term 0 t.length

/-- Stable insertion of a glossary entry into a list sorted by descending
English-term length (earlier entries win ties, as JS stable sort does). -/
def insertDescLen (x : GlossaryEntry) : List GlossaryEntry → List GlossaryEntry
  | [] => [x]
  | y :: ys =>
    if y.english.length ≤ x.english.length then x :: y :: ys
    else y :: insertDescLen x ys

/-- Stable sort by descending English-term length (JS sort with comparator
b.english.length - a.english.length, which is stable). -/
def sortByLenDesc : List GlossaryEntry → List GlossaryEntry
  | [] => []
  | x :: xs => insertDescLen x (sortByLenDesc xs)

/-- identifyTermsInText (geminiService.ts lines 192-225): sorts the glossary
by descending term length, then for each entry collects the global match
positions of its word-bounded pattern in the lowercased text, keeping entries
with at least one position. -/
def identifyTermsInText (text : Str) (glossary : List GlossaryEntry) : List TermMatch :=
  let textLower := toLowerStr text
  let sortedGlossary := sortByLenDesc glossary
  sortedGlossary.filterMap fun entry =>
    let termLower := toLowerStr entry.english
    let positions := findPositions textLower termLower
    if positions.isEmpty then none
    else some { english := entry.english, chinese := entry.chinese
                positions := positions, source := "glossary" }

/-! ## Batch translation (geminiService.ts lines 230-267) -/

/-- Result of awaiting translateChunk for one chunk: either the resolved
translation text, or the message of the thrown error. -/
inductive ChunkOutcome where
  | ok (translation : Str)
  | err (msg : Str)
  deriving Repr, DecidableEq

/-- The in-band failed-translation marker pushed by the catch branch of
translateChunks. -/
def errMarker (msg : Str) : Str := "[Error: ".toList ++ msg ++ "]".toList

/-- Loop body of translateChunks from index i on, with oracle giving the
outcome of the awaited translateChunk call of each index.  Returns the
output chunks and the (current, total) arguments of the onProgress calls
in order. -/
def translateChunksAux (glossary : List GlossaryEntry) (total : Nat)
    (oracle : Nat → ChunkOutcome) : Nat → List Chunk → List TranslatedChunk × List (Nat × Nat)
  | _, [] => ([], [])
  | i, c :: cs =>
    let next := translateChunksAux glossary total oracle (i + 1) cs
    match oracle i with
    | ChunkOutcome.ok t =>
      ({ toChunk := c, translation := t
         matchedTerms := identifyTermsInText c.text glossary, newTerms := [] } :: next.1,
       (i + 1, total) :: next.2)
    | ChunkOutcome.err m =>
      ({ toChunk := c, translation := errMarker m
         matchedTerms := [], newTerms := [] } :: next.1,
       next.2)

/-- translateChunks (geminiService.ts lines 230-267): serial loop over the
chunks; a successful translateChunk resolution is pushed together with a
progress callback, a rejection is caught and pushed as an error-marker chunk
without a progress callback. -/
def translateChunksRun (chunks : List Chunk) (glossary : List GlossaryEntry)
    (oracle : Nat → ChunkOutcome) : List TranslatedChunk × List (Nat × Nat) :=
  translateChunksAux glossary chunks.length oracle 0 chunks

/-! ## Coverage statistics (geminiService.ts lines 272-289) -/

/-- JS Set.add on a list model of an insertion-ordered string set. -/
def setAdd (s : List Str) (x : Str) : List Str :=
  if x ∈ s then s else s ++ [x]

/-- Math.round for a non-negative rational: floor of q + 1/2. -/
def jsRound (q : ℚ) : ℤ := ⌊q + 1 / 2⌋

/-- Coverage statistics record returned by calculateCoverage. -/
structure Coverage where
  matched : Nat
  total : Nat
  percentage : ℤ
  deriving Repr, DecidableEq

/-- calculateCoverage (geminiService.ts lines 272-289): collects the set of
lowercased matched-term names over all chunks, divides by the glossary
length, and rounds. -/
def calculateCoverage (translatedChunks : List TranslatedChunk)
    (glossary : List GlossaryEntry) : Coverage :=
  let matchedTermSet := translatedChunks.foldl
    (fun s c => c.matchedTerms.foldl (fun s m => setAdd s (toLowerStr m.english)) s) []
  let matched := matchedTermSet.length
  let total := glossary.length
  let percentage := if 0 < total then jsRound ((matched : ℚ) / (total : ℚ) * 100) else 0
  { matched := matched, total := total, percentage := percentage }

/-! ## Chunk manager (chunkManager.ts) -/

/-- Two newline characters: the paragraph separator inserted by the chunk
accumulator and by reassembleChunks. -/
def nl2 : Str := ['\n', '\n']

/-- Splitting scan of JS text.split on the regex of one-or-more blank-line
newlines (backslash-n twice then plus): a piece ends at each maximal run of
at least two newlines.  The fuel argument only bounds the scan, which
consumes at least one character per step. -/
def splitParasAux (acc : Str) : Str → Nat → List Str
  | l, 0 => [acc.reverse ++ l]
  | [], _ + 1 => [acc.reverse]
  | c :: rest, fuel + 1 =>
    if c = '\n' ∧ rest.head? = some '\n' then
      acc.reverse :: splitParasAux [] (rest.dropWhile (· = '\n')) fuel
    else
      splitParasAux (c :: acc) rest fuel

/-- JS text.split on runs of two or more newlines. -/
def splitParas (s : Str) : List Str := splitParasAux [] s s.length

/-- The non-blank paragraphs of a text, in order: split on blank lines and
keep the pieces whose trim is non-empty (the filter of splitIntoChunks). -/
def paragraphsOf (s : Str) : List Str :=
  (splitParas s).filter fun p => !(trim p).isEmpty

/-- Sentence-final punctuation of the splitIntoSentences regex class. -/
def isPunct (c : Char) : Bool := c = '.' || c = '!' || c = '?'

/-- Splitting scan of splitIntoSentences: the separator is a maximal run of
sentence punctuation followed by a maximal run of whitespace, and each piece
keeps its trailing separator (the reduce step of chunkManager.ts lines
188-198). -/
def splitSentAux (acc : Str) : Str → Nat → List Str
  | l, 0 => [acc.reverse ++ l]
  | [], _ + 1 => [acc.reverse]
  | c :: rest, fuel + 1 =>
    if isPunct c && !((rest.dropWhile isPunct).takeWhile isWS).isEmpty then
      (acc.reverse ++ (c :: rest.takeWhile isPunct) ++ (rest.dropWhile isPunct).takeWhile isWS)
        :: splitSentAux [] ((rest.dropWhile isPunct).dropWhile isWS) fuel
    else
      splitSentAux (c :: acc) rest fuel

/-- splitIntoSentences (chunkManager.ts lines 188-199): split on sentence
separators, glue each separator to its sentence, drop blank pieces. -/
def splitIntoSentences (text : Str) : List Str :=
  (splitSentAux [] text text.length).filter fun s => !(trim s).isEmpty

/-- Length of the leading run of number-sign characters. -/
def hashRun (s : Str) : Nat := (s.takeWhile (· = '#')).length

/-- Whether the character at index i is whitespace (out of range is not). -/
def wsAt (s : Str) (i : Nat) : Bool :=
  match s.get? i with
  | some c => isWS c
  | none => false

/-- Test of the markdown-heading regex (number signs one to six then
whitespace, anchored at the start). -/
def markdownHeading (s : Str) : Bool :=
  1 ≤ hashRun s && hashRun s ≤ 6 && wsAt s (hashRun s)

/-- Whether, from index k on, s continues with at least one whitespace
character whose maximal run is followed by a character satisfying p. -/
def wsRunThen (p : Char → Bool) (s : Str) (k : Nat) : Bool :=
  let rest := s.drop k
  let w := (rest.takeWhile isWS).length
  1 ≤ w && (match rest.get? w with
            | some c => p c
            | none => false)

/-- Uppercase ASCII letter (the regex class A to Z). -/
def isUpperAZ (c : Char) : Bool := 'A' ≤ c && c ≤ 'Z'

/-- Letter or whitespace (the regex class a-zA-Z with backslash-s). -/
def isAlphaSpace (c : Char) : Bool := c.isAlpha || isWS c

/-- Whether the string contains two adjacent dots. -/
def hasDotDot : Str → Bool
  | [] => false
  | c :: rest => (c = '.' && rest.head? = some '.') || hasDotDot rest

/-- Test of the numbered-heading regex on the first line: one or more
digit-groups each closed by a dot, optional trailing digits, whitespace,
then an uppercase letter. -/
def numberedHeading (s : Str) : Bool :=
  let pre := s.takeWhile fun c => c.isDigit || c = '.'
  !pre.isEmpty
    && (match pre.head? with
        | some c => c.isDigit
        | none => false)
    && pre.contains '.'
    && !hasDotDot pre
    && wsRunThen isUpperAZ s pre.length

/-- Test of the capitalized-title regex: an uppercase letter, at least two
letter-or-space characters, then no sentence punctuation to the end. -/
def capitalizedTitle (s : Str) : Bool :=
  match s with
  | a :: b :: c :: rest =>
    isUpperAZ a && isAlphaSpace b && isAlphaSpace c && rest.all fun x => !isPunct x
  | _ => false

/-- Test of the explicit Chapter, Section, Annex or Appendix start regex,
case-insensitive, requiring whitespace then a word character after the
keyword. -/
def explicitHeading (s : Str) : Bool :=
  let l := toLowerStr s
  [['c','h','a','p','t','e','r'], ['s','e','c','t','i','o','n'],
   ['a','n','n','e','x'], ['a','p','p','e','n','d','i','x']].any fun kw =>
    List.isPrefixOf kw l && wsRunThen isWordChar l kw.length

/-- List-marker character class of the list-detection regex: hyphen,
asterisk, bullet, or a digit. -/
def isListMarker (c : Char) : Bool := c = '-' || c = '*' || c = '•' || c.isDigit

/-- Test of the list-detection regex: one or more marker characters, then a
dot or closing parenthesis, then whitespace; or a literal dash-space start. -/
def listStart (s : Str) : Bool :=
  (let run := (s.takeWhile isListMarker).length
   1 ≤ run
     && (match s.get? run with
         | some c => c = '.' || c = ')'
         | none => false)
     && wsAt s (run + 1))
  || List.isPrefixOf ['-', ' '] s

/-- Split on single newlines (JS split with a newline separator). -/
def splitOnNl : Str → List Str
  | [] => [[]]
  | c :: rest =>
    if c = '\n' then [] :: splitOnNl rest
    else
      match splitOnNl rest with
      | p :: ps => (c :: p) :: ps
      | [] => [[c]]

/-- Table test: more than four pipes overall and more than two lines holding
a pipe. -/
def tableTest (s : Str) : Bool :=
  4 < s.count '|' && 2 < ((splitOnNl s).filter fun l => l.contains '|').length

/-- Heading metadata of createChunk: the capture groups of the
markdown-heading regex with groups (level from the number signs, heading
text up to the end of line), or the fallback of stripping the prefix from
the first line. -/
def headingMetadata (trimmedText firstLine : Str) : ChunkMetadata :=
  if markdownHeading trimmedText then
    let r := hashRun trimmedText
    let restAll := trimmedText.drop r
    let w := (restAll.takeWhile isWS).length
    { level := some r, heading := some ((restAll.drop w).takeWhile (· ≠ '\n')) }
  else
    let r := hashRun firstLine
    let strip :=
      if 1 ≤ r && r ≤ 6 && wsAt firstLine r then
        let restAll := firstLine.drop r
        let w := (restAll.takeWhile isWS).length
        restAll.drop w
      else firstLine
    { level := some 2, heading := some strip }

/-- createChunk (chunkManager.ts lines 117-183): trims the text, scores the
heading indicators, detects lists and tables, and builds the chunk record. -/
def createChunk (text : Str) (position : Nat) : Chunk :=
  let trimmedText := trim text
  let firstLine := trimmedText.takeWhile (· ≠ '\n')
  let markdown := markdownHeading trimmedText
  let numbered := numberedHeading firstLine
  let capitalized := capitalizedTitle firstLine
  let short := firstLine.length < 100
  let noPunctuation :=
    match firstLine.getLast? with
    | some c => !isPunct c
    | none => true
  let explicitStart := explicitHeading firstLine
  let headingScore :=
    (if markdown then 5 else 0) + (if explicitStart then 5 else 0)
      + (if numbered && short then 3 else 0)
      + (if capitalized && short && noPunctuation then 2 else 0)
  let isList := listStart trimmedText
  let isTable := tableTest trimmedText
  let type :=
    if 2 ≤ headingScore then ChunkType.heading
    else if isList then ChunkType.list
    else if isTable then ChunkType.table
    else ChunkType.paragraph
  let metadata :=
    if 2 ≤ headingScore then headingMetadata trimmedText firstLine
    else { level := none, heading := none }
  { id := "chunk_" ++ toString position, text := trimmedText
    position := position, type := type, metadata := metadata }

/-- Inner sentence loop of splitIntoChunks (chunkManager.ts lines 94-100):
flush the buffer when the next sentence would overflow, then append the
sentence and a space. -/
def sentenceFold (maxTokens : Nat) : List Str → List Chunk × Str × Nat → List Chunk × Str × Nat
  | [], st => st
  | s :: ss, (out, cc, pos) =>
    if maxTokens < estimateTokens (cc ++ s) ∧ cc ≠ [] then
      sentenceFold maxTokens ss (out ++ [createChunk cc pos], s ++ [' '], pos + 1)
    else
      sentenceFold maxTokens ss (out, cc ++ s ++ [' '], pos)

/-- Outer paragraph loop of splitIntoChunks (chunkManager.ts lines 80-104):
flush when the paragraph would overflow the buffer, then either append the
paragraph with a blank line, or split an oversized paragraph by sentences. -/
def paraFold (maxTokens : Nat) : List Str → List Chunk × Str × Nat → List Chunk × Str × Nat
  | [], st => st
  | p :: ps, (out, cc, pos) =>
    let st1 :=
      if cc ≠ [] ∧ maxTokens < estimateTokens (cc ++ p) then
        (out ++ [createChunk cc pos], ([] : Str), pos + 1)
      else (out, cc, pos)
    let st2 :=
      if maxTokens < estimateTokens p then
        sentenceFold maxTokens (splitIntoSentences p) st1
      else (st1.1, st1.2.1 ++ p ++ nl2, st1.2.2)
    paraFold maxTokens ps st2

/-- splitIntoChunks (chunkManager.ts lines 71-112): split into non-blank
paragraphs, accumulate them into chunks within the token budget, and flush
the remainder. -/
def splitIntoChunks (text : Str) (maxTokens : Nat := 800) : List Chunk :=
  let st := paraFold maxTokens (paragraphsOf text) ([], [], 0)
  if (trim st.2.1).isEmpty then st.1 else st.1 ++ [createChunk st.2.1 st.2.2]

/-- JS Array.prototype.join with a separator string. -/
def joinStrs (sep : Str) : List Str → Str
  | [] => []
  | [x] => x
  | x :: xs => x ++ sep ++ joinStrs sep xs

/-- reassembleChunks (chunkManager.ts lines 212-223): join the chunk texts
with blank lines, wrapping heading chunks in extra newlines, then trim. -/
def reassembleChunks (chunks : List Chunk) : Str :=
  trim (joinStrs nl2 (chunks.map fun c =>
    if c.type = ChunkType.heading then nl2 ++ c.text ++ ['\n'] else c.text))

/-! ## Document layout analysis (documentParser.ts lines 22-70) -/

/-- PDF.js text run: its string and the vertical coordinate item.transform
at index 5, modelled as a rational. -/
structure RunItem where
  str : Str
  transform5 : ℚ
  deriving Repr, DecidableEq

/-- Layout thresholds record of documentParser.ts. -/
structure LayoutThresholds where
  sameLine : ℚ
  newLine : ℚ
  paragraphBreak : ℚ
  deriving Repr, DecidableEq

/-- JS Math.abs on rationals. -/
def qabs (q : ℚ) : ℚ := if q < 0 then -q else q

/-- JS Math.max on rationals. -/
def qmax (a b : ℚ) : ℚ := if a ≤ b then b else a

/-- Gap-collection loop of analyzeDocumentLayout: lastY starts at the
sentinel -1, empty runs are skipped, and a gap is kept when strictly between
0.1 and 500. -/
def collectGaps (lastY : ℚ) : List RunItem → List ℚ
  | [] => []
  | it :: rest =>
    if (trim it.str).isEmpty then collectGaps lastY rest
    else
      let y := it.transform5
      (if lastY ≠ -1 then
        (let gap := qabs (y - lastY)
         if 1 / 10 < gap ∧ gap < 500 then [gap] else [])
       else []) ++ collectGaps y rest

/-- Ascending insertion into a sorted list of rationals. -/
def insertAsc (x : ℚ) : List ℚ → List ℚ
  | [] => [x]
  | y :: ys => if x ≤ y then x :: y :: ys else y :: insertAsc x ys

/-- Ascending numeric sort (the JS sort with comparator a - b). -/
def sortGaps : List ℚ → List ℚ
  | [] => []
  | x :: xs => insertAsc x (sortGaps xs)

/-- Math.floor of length times a fractional factor, as an index. -/
def percentileIdx (n : Nat) (frac : ℚ) : Nat := (⌊(n : ℚ) * frac⌋).toNat

/-- Percentile-based thresholds from a list of collected gaps: the shared
tail of analyzeDocumentLayout (fallback under five samples, otherwise sorted
percentiles with lower bounds). -/
def thresholdsOfGaps (verticalGaps : List ℚ) : LayoutThresholds :=
  if verticalGaps.length < 5 then
    { sameLine := 3, newLine := 15, paragraphBreak := 30 }
  else
    let sorted := sortGaps verticalGaps
    let p20 := sorted.getD (percentileIdx sorted.length (2 / 10)) 0
    let p50 := sorted.getD (percentileIdx sorted.length (5 / 10)) 0
    let p80 := sorted.getD (percentileIdx sorted.length (8 / 10)) 0
    { sameLine := qmax (p20 * (8 / 10)) 2
      newLine := qmax (p50 * (15 / 10)) 10
      paragraphBreak := qmax (p80 * (12 / 10)) 25 }

/-- analyzeDocumentLayout (documentParser.ts lines 22-70). -/
def analyzeDocumentLayout (items : List RunItem) : LayoutThresholds :=
  thresholdsOfGaps (collectGaps (-1) items)

/-- Gap collection continued from a previous coordinate, specification
side: the filtered absolute gaps along the chain of coordinates starting at
prev. -/
def collectGapsSpecAux (prev : ℚ) : List ℚ → List ℚ
  | [] => []
  | y :: ys =>
    (if 1 / 10 < qabs (y - prev) ∧ qabs (y - prev) < 500 then [qabs (y - prev)] else [])
      ++ collectGapsSpecAux y ys

/-- Gap collection as the specification describes it: the absolute vertical
gaps between consecutive non-empty runs, kept when strictly inside the
interval from 0.1 to 500, with no special treatment of any coordinate. -/
def collectGapsSpec (items : List RunItem) : List ℚ :=
  match (items.filter fun it => !(trim it.str).isEmpty).map (·.transform5) with
  | [] => []
  | y :: ys => collectGapsSpecAux y ys

/-- analyzeDocumentLayout as the specification describes it. -/
def analyzeDocumentLayoutSpec (items : List RunItem) : LayoutThresholds :=
  thresholdsOfGaps (collectGapsSpec items)

/-! ## Specification-side definitions for the remaining claims -/

/-- Progress events the specification of the batch loop describes: one call
after every chunk, successful or failed. -/
def progressAllSpec (n : Nat) : List (Nat × Nat) :=
  (List.range n).map fun i => (i + 1, n)

/-- Progress events the code actually produces: one call after every
successfully translated chunk only. -/
def progressOkSpec (oracle : Nat → ChunkOutcome) (n : Nat) : List (Nat × Nat) :=
  (List.range n).filterMap fun i =>
    match oracle i with
    | ChunkOutcome.ok _ => some (i + 1, n)
    | ChunkOutcome.err _ => none

/-- Coverage as the claim words it: the fraction of distinct glossary terms
(case-insensitively) that appear in at least one chunk's matched terms,
with the total being the number of distinct glossary terms. -/
def coverageClaimSpec (translatedChunks : List TranslatedChunk)
    (glossary : List GlossaryEntry) : Coverage :=
  let distinctTerms := (glossary.map fun e => toLowerStr e.english).dedup
  let appearing := distinctTerms.filter fun t =>
    translatedChunks.any fun c => c.matchedTerms.any fun m => toLowerStr m.english == t
  let matched := appearing.length
  let total := distinctTerms.length
  let percentage := if 0 < total then jsRound ((matched : ℚ) / (total : ℚ) * 100) else 0
  { matched := matched, total := total, percentage := percentage }

/-- Coverage as the code computes it, stated independently of the running
set: the number of distinct lowercased matched-term names over the number of
glossary entries (duplicates counted). -/
def coverageAmendedSpec (translatedChunks : List TranslatedChunk)
    (glossary : List GlossaryEntry) : Coverage :=
  let matched := ((translatedChunks.flatMap fun c => c.matchedTerms).map
    fun m => toLowerStr m.english).dedup.length
  let total := glossary.length
  let percentage := if 0 < total then jsRound ((matched : ℚ) / (total : ℚ) * 100) else 0
  { matched := matched, total := total, percentage := percentage }

/-- Whether a string is non-empty with a non-whitespace first character. -/
def firstCharNotWS : Str → Bool
  | [] => false
  | c :: _ => !isWS c

/-- Whether the string contains two adjacent newlines. -/
def hasNl2 : Str → Bool
  | [] => false
  | c :: rest => (c = '\n' && rest.head? = some '\n') || hasNl2 rest

/-- A clean paragraph: non-blank, trimmed at both ends, and containing no
blank-line separator, the canonical shape of a blank-line-separated
paragraph-only input. -/
def cleanPara (p : Str) : Bool :=
  firstCharNotWS p && firstCharNotWS p.reverse && !hasNl2 p

/-- Shape of a text made of clean paragraphs separated by newline runs of
length at least two, with no leading or trailing run. -/
inductive ParaShape : Str → List Str → Prop where
  | nil : ParaShape [] []
  | single (p : Str) : cleanPara p = true → ParaShape p [p]
  | cons (p : Str) (k : Nat) (t : Str) (q : Str) (qs : List Str) :
      cleanPara p = true → 2 ≤ k → ParaShape t (q :: qs) →
      ParaShape (p ++ List.replicate k '\n' ++ t) (p :: q :: qs)

/-! ## Concrete inputs used by witnesses and counterexamples -/

/-- Default chunk used as the out-of-range value of list indexing. -/
def defaultChunk : Chunk :=
  { id := "", text := [], position := 0, type := ChunkType.paragraph
    metadata := { level := none, heading := none } }

/-- Default translated chunk used as the out-of-range value of list
indexing. -/
def defaultTranslated : TranslatedChunk :=
  { toChunk := defaultChunk, translation := [], matchedTerms := [], newTerms := [] }

/-- Text of the longest-match example of the specification. -/
def devText : Str := "the safety device failed".toList

/-- Glossary of the longest-match example of the specification. -/
def devGlossary : List GlossaryEntry :=
  [{ english := "device".toList, chinese := "装置".toList },
   { english := "safety device".toList, chinese := "安全装置".toList }]

/-- Page runs whose first coordinate is exactly the sentinel -1: five
spec-side gaps but only four code-side gaps. -/
def layoutItemsCex : List RunItem :=
  [{ str := ['a'], transform5 := -1 }, { str := ['a'], transform5 := 10 },
   { str := ['a'], transform5 := 30 }, { str := ['a'], transform5 := 60 },
   { str := ['a'], transform5 := 100 }, { str := ['a'], transform5 := 150 }]

/-- A batch result with one matched term, against a glossary holding the
same English term twice. -/
def coverageChunksCex : List TranslatedChunk :=
  [{ toChunk := defaultChunk, translation := ['t']
     matchedTerms := [{ english := "device".toList, chinese := "装置".toList
                        positions := [0], source := "glossary" }]
     newTerms := [] }]

/-- Glossary with a duplicated English term. -/
def coverageGlossaryCex : List GlossaryEntry :=
  [{ english := "device".toList, chinese := "装置".toList },
   { english := "device".toList, chinese := "设备".toList }]

/-- One-chunk batch whose single translation call fails. -/
def progressChunkCex : Chunk :=
  { id := "chunk_0", text := ['a'], position := 0, type := ChunkType.paragraph
    metadata := { level := none, heading := none } }

/-- Oracle that rejects every translation call. -/
def progressOracleCex : Nat → ChunkOutcome := fun _ => ChunkOutcome.err ['b']

/-- Paragraph-only input whose single paragraph overflows a budget of one
token: two sentences that get split across chunks. -/
def paraCexText : Str := "aa. bb.".toList

/-! ## Theorems -/

/-- C10: setApiKeys with an empty list is a no-op on the whole state; with a
non-empty list the pool becomes exactly that list, the index resets to 0 and
the client is rebuilt from the first key. -/
theorem setApiKeys_empty_noop_nonempty_resets :
    (∀ st : GeminiState, setApiKeys [] st = st) ∧
    (∀ (keys : List String) (st : GeminiState), keys ≠ [] →
      (setApiKeys keys st).keyPool = keys ∧
      (setApiKeys keys st).currentKeyIndex = 0 ∧
      (setApiKeys keys st).activeClientKey = keys.headD "") := by
  constructor
  · intro st
    simp [setApiKeys]
  · intro keys st hk
    have hpos : 0 < keys.length := List.length_pos.mpr hk
    simp [setApiKeys, hpos]

/-- Witness for C10 at a concrete non-empty key list. -/
theorem setApiKeys_empty_noop_nonempty_resets_witness :
    (setApiKeys ["a", "b"] ⟨["x"], 3, "x"⟩).keyPool = ["a", "b"] ∧
    (setApiKeys ["a", "b"] ⟨["x"], 3, "x"⟩).currentKeyIndex = 0 ∧
    (setApiKeys ["a", "b"] ⟨["x"], 3, "x"⟩).activeClientKey = ["a", "b"].headD "" :=
  setApiKeys_empty_noop_nonempty_resets.2 ["a", "b"] ⟨["x"], 3, "x"⟩ (by simp)

/-- Rotation leaves the key pool itself unchanged. -/
theorem rotateKey_keyPool (st : GeminiState) : (rotateKey st).2.keyPool = st.keyPool := by
  unfold rotateKey
  split <;> simp

/-- C9: with at most one credential in the pool, rotateKey reports false and
leaves the state untouched, so the retry loop never changes the service
state and every status event it emits is a backoff pause, never a key
switch. -/
theorem rotateKey_single_key_no_switch :
    ∀ st : GeminiState, st.keyPool.length ≤ 1 →
      rotateKey st = (false, st) ∧
      ∀ (rst : RetryState) (outs : List ApiOutcome),
        (tcRun st rst outs).2.1 = st ∧
        ∀ e ∈ (tcRun st rst outs).2.2, ∃ d, e = TCEvent.backoffWait d := by
  intro st h
  have hrot : rotateKey st = (false, st) := by
    unfold rotateKey
    simp [h]
  refine ⟨hrot, ?_⟩
  intro rst outs
  induction outs generalizing rst with
  | nil => simp [tcRun]
  | cons o rest ih =>
    simp only [tcRun]
    split
    · simp
    · cases o with
      | success raw => simp
      | otherError m => simp
      | rateLimit =>
        simp only [hrot]
        split
        · split
          · next hc => exact absurd hc (by simp)
          · split
            · simp
            · refine ⟨(ih _).1, ?_⟩
              intro e he
              rcases List.mem_cons.mp he with h1 | h2
              · exact ⟨_, h1⟩
              · exact (ih _).2 e h2
        · split
          · simp
          · refine ⟨(ih _).1, ?_⟩
            intro e he
            rcases List.mem_cons.mp he with h1 | h2
            · exact ⟨_, h1⟩
            · exact (ih _).2 e h2

/-- Witness for C9 with a single-key pool and two rate limits. -/
theorem rotateKey_single_key_no_switch_witness :
    rotateKey ⟨["k"], 0, "k"⟩ = (false, ⟨["k"], 0, "k"⟩) ∧
    (tcRun ⟨["k"], 0, "k"⟩ ⟨0, 0⟩ [ApiOutcome.rateLimit, ApiOutcome.rateLimit]).2.1
      = ⟨["k"], 0, "k"⟩ ∧
    ∀ e ∈ (tcRun ⟨["k"], 0, "k"⟩ ⟨0, 0⟩ [ApiOutcome.rateLimit, ApiOutcome.rateLimit]).2.2,
      ∃ d, e = TCEvent.backoffWait d := by
  have h := rotateKey_single_key_no_switch ⟨["k"], 0, "k"⟩ (by simp)
  exact ⟨h.1, (h.2 ⟨0, 0⟩ _).1, (h.2 ⟨0, 0⟩ _).2⟩

/-- Step of the retry loop on a rate limit when the pool still has an
untried key: rotate and retry without touching the retry counter. -/
theorem tcRun_rateLimit_rotate (st : GeminiState) (rst : RetryState)
    (rest : List ApiOutcome) (h1 : ¬ maxRetries < rst.retries)
    (hlt : rst.keysTried < st.keyPool.length) (h2 : ¬ st.keyPool.length ≤ 1) :
    tcRun st rst (ApiOutcome.rateLimit :: rest) =
      ((tcRun (rotateKey st).2 ⟨rst.retries, rst.keysTried + 1⟩ rest).1,
       (tcRun (rotateKey st).2 ⟨rst.retries, rst.keysTried + 1⟩ rest).2.1,
       TCEvent.keySwitch (rotateKey st).2.currentKeyIndex ::
         (tcRun (rotateKey st).2 ⟨rst.retries, rst.keysTried + 1⟩ rest).2.2) := by
  have hfst : (rotateKey st).1 = true := by
    unfold rotateKey
    rw [if_neg h2]
  simp only [tcRun, if_neg h1, if_pos hlt, hfst, if_true]

/-- Step of the retry loop on a rate limit when the pool is exhausted for
the cycle (or holds at most one key) and retries remain: apply the linear
backoff delay, bump the retry counter and reset the tried-keys count. -/
theorem tcRun_rateLimit_backoff (st : GeminiState) (rst : RetryState)
    (rest : List ApiOutcome) (h1 : ¬ maxRetries < rst.retries)
    (hc : st.keyPool.length ≤ rst.keysTried ∨ st.keyPool.length ≤ 1)
    (h3 : ¬ maxRetries < rst.retries + 1) :
    tcRun st rst (ApiOutcome.rateLimit :: rest) =
      ((tcRun st ⟨rst.retries + 1, 0⟩ rest).1,
       (tcRun st ⟨rst.retries + 1, 0⟩ rest).2.1,
       TCEvent.backoffWait (baseDelay * (rst.retries + 1)) ::
         (tcRun st ⟨rst.retries + 1, 0⟩ rest).2.2) := by
  rcases hc with hc | hc
  · have hge : ¬ rst.keysTried < st.keyPool.length := by omega
    simp only [tcRun, if_neg h1, if_neg hge, if_neg h3]
  · have hfst : (rotateKey st).1 = false := by
      unfold rotateKey
      rw [if_pos hc]
    by_cases hlt : rst.keysTried < st.keyPool.length
    · simp only [tcRun, if_neg h1, if_pos hlt, hfst, Bool.false_eq_true, if_false, if_neg h3]
    · simp only [tcRun, if_neg h1, if_neg hlt, if_neg h3]

/-- Step of the retry loop when the guard has been exceeded (unreachable in
real runs). -/
theorem tcRun_guard (st : GeminiState) (rst : RetryState) (o : ApiOutcome)
    (rest : List ApiOutcome) (h : maxRetries < rst.retries) :
    tcRun st rst (o :: rest) = (TCResult.unexpectedExit, st, []) := by
  simp only [tcRun, if_pos h]

/-- Step of the retry loop on a successful attempt. -/
theorem tcRun_success (st : GeminiState) (rst : RetryState) (raw : String)
    (rest : List ApiOutcome) (h : ¬ maxRetries < rst.retries) :
    tcRun st rst (ApiOutcome.success raw :: rest) = (TCResult.translated raw, st, []) := by
  simp only [tcRun, if_neg h]

/-- Step of the retry loop on a non-rate-limit error. -/
theorem tcRun_otherError (st : GeminiState) (rst : RetryState) (m : String)
    (rest : List ApiOutcome) (h : ¬ maxRetries < rst.retries) :
    tcRun st rst (ApiOutcome.otherError m :: rest) = (TCResult.failedOther m, st, []) := by
  simp only [tcRun, if_neg h]

/-- Step of the retry loop on a rate limit when the pool is exhausted and
the retry budget is spent: the final failure. -/
theorem tcRun_rateLimit_throw (st : GeminiState) (rst : RetryState)
    (rest : List ApiOutcome) (h1 : ¬ maxRetries < rst.retries)
    (hc : st.keyPool.length ≤ rst.keysTried ∨ st.keyPool.length ≤ 1)
    (h3 : maxRetries < rst.retries + 1) :
    tcRun st rst (ApiOutcome.rateLimit :: rest) = (TCResult.failedRetries, st, []) := by
  rcases hc with hc | hc
  · have hge : ¬ rst.keysTried < st.keyPool.length := by omega
    simp only [tcRun, if_neg h1, if_neg hge, if_pos h3]
  · have hfst : (rotateKey st).1 = false := by
      unfold rotateKey
      rw [if_pos hc]
    by_cases hlt : rst.keysTried < st.keyPool.length
    · simp only [tcRun, if_neg h1, if_pos hlt, hfst, Bool.false_eq_true, if_false, if_pos h3]
    · simp only [tcRun, if_neg h1, if_neg hlt, if_pos h3]

/-- One full rotation cycle: with m untried keys left, m + 1 consecutive
rate limits produce m key switches and then one backoff with the linear
delay, resetting the tried-keys count. -/
theorem tcRun_cycle :
    ∀ (m : Nat) (st : GeminiState) (rst : RetryState) (rest : List ApiOutcome),
      2 ≤ st.keyPool.length → rst.retries < maxRetries →
      rst.keysTried + m = st.keyPool.length →
      ∃ st' : GeminiState, st'.keyPool = st.keyPool ∧
        tcRun st rst (List.replicate (m + 1) ApiOutcome.rateLimit ++ rest) =
          ((tcRun st' ⟨rst.retries + 1, 0⟩ rest).1,
           (tcRun st' ⟨rst.retries + 1, 0⟩ rest).2.1,
           cycleEvents st.keyPool.length st.currentKeyIndex m ++
             TCEvent.backoffWait (baseDelay * (rst.retries + 1)) ::
               (tcRun st' ⟨rst.retries + 1, 0⟩ rest).2.2) := by
  intro m
  induction m with
  | zero =>
    intro st rst rest hN hr hm
    refine ⟨st, rfl, ?_⟩
    simp only [List.replicate_succ, List.replicate_zero, List.nil_append, List.cons_append,
      cycleEvents]
    rw [tcRun_rateLimit_backoff st rst rest (by omega) (Or.inl (by omega)) (by omega)]
  | succ m ih =>
    intro st rst rest hN hr hm
    have hlt : rst.keysTried < st.keyPool.length := by omega
    have hpool2 : (rotateKey st).2.keyPool = st.keyPool := rotateKey_keyPool st
    obtain ⟨st', hpool, heq⟩ :=
      ih (rotateKey st).2 ⟨rst.retries, rst.keysTried + 1⟩ rest
        (by rw [hpool2]; exact hN) hr
        (by rw [hpool2]; show rst.keysTried + 1 + m = st.keyPool.length; omega)
    refine ⟨st', by rw [hpool, hpool2], ?_⟩
    have hstep := tcRun_rateLimit_rotate st rst (List.replicate (m + 1) ApiOutcome.rateLimit ++ rest)
      (by omega) hlt (by omega)
    simp only [List.replicate_succ, List.cons_append] at *
    rw [hstep, heq]
    have hidx : (rotateKey st).2.currentKeyIndex
        = (st.currentKeyIndex + 1) % st.keyPool.length := by
      unfold rotateKey
      rw [if_neg (by omega : ¬ st.keyPool.length ≤ 1)]
    rw [hpool2, hidx, cycleEvents]
    simp

/-- Per-cycle rotation bound: the number of key switches before the first
backoff is at most the pool size minus the tried-keys count, and every later
cycle has at most pool-size key switches. -/
theorem segRot_tcRun_bound :
    ∀ (outs : List ApiOutcome) (st : GeminiState) (rst : RetryState),
      (segRot (tcRun st rst outs).2.2).1 ≤ st.keyPool.length - rst.keysTried ∧
      ∀ c ∈ (segRot (tcRun st rst outs).2.2).2, c ≤ st.keyPool.length := by
  intro outs
  induction outs with
  | nil => intro st rst; simp [tcRun, segRot]
  | cons o rest ih =>
    intro st rst
    by_cases hg : maxRetries < rst.retries
    · rw [tcRun_guard st rst o rest hg]
      simp [segRot]
    · cases o with
      | success raw =>
        rw [tcRun_success st rst raw rest hg]
        simp [segRot]
      | otherError m =>
        rw [tcRun_otherError st rst m rest hg]
        simp [segRot]
      | rateLimit =>
        by_cases hcase : rst.keysTried < st.keyPool.length ∧ ¬ st.keyPool.length ≤ 1
        · rw [tcRun_rateLimit_rotate st rst rest hg hcase.1 hcase.2]
          have h := ih (rotateKey st).2 ⟨rst.retries, rst.keysTried + 1⟩
          rw [rotateKey_keyPool] at h
          have h1 : (segRot (tcRun (rotateKey st).2 ⟨rst.retries, rst.keysTried + 1⟩ rest).2.2).1
              ≤ st.keyPool.length - (rst.keysTried + 1) := h.1
          refine ⟨?_, h.2⟩
          simp only [segRot]
          omega
        · have hc : st.keyPool.length ≤ rst.keysTried ∨ st.keyPool.length ≤ 1 := by
            by_cases hp : st.keyPool.length ≤ 1
            · exact Or.inr hp
            · refine Or.inl ?_
              rcases not_and_or.mp hcase with h1 | h2
              · omega
              · exact absurd (not_not.mp h2) hp
          by_cases h3 : maxRetries < rst.retries + 1
          · rw [tcRun_rateLimit_throw st rst rest hg hc h3]
            simp [segRot]
          · rw [tcRun_rateLimit_backoff st rst rest hg hc h3]
            have h := ih st ⟨rst.retries + 1, 0⟩
            have h1 : (segRot (tcRun st ⟨rst.retries + 1, 0⟩ rest).2.2).1
                ≤ st.keyPool.length - 0 := h.1
            refine ⟨by simp [segRot], ?_⟩
            simp only [segRot]
            intro c hcm
            rcases List.mem_cons.mp hcm with hx | hx
            · subst hx
              omega
            · exact h.2 c hx

/-- Shape of a rotation cycle's event list: m events, all key switches. -/
theorem cycleEvents_shape :
    ∀ (m len idx : Nat), (cycleEvents len idx m).length = m ∧
      ∀ e ∈ cycleEvents len idx m, ∃ j, e = TCEvent.keySwitch j := by
  intro m
  induction m with
  | zero => intro len idx; simp [cycleEvents]
  | succ m ih =>
    intro len idx
    simp only [cycleEvents, List.length_cons, List.mem_cons]
    refine ⟨by rw [(ih len _).1], ?_⟩
    rintro e (rfl | he)
    · exact ⟨_, rfl⟩
    · exact (ih len _).2 e he

/-- C2: in the retry loop of translateChunk with a pool of N keys (N at
least two) and a fresh cycle, N + 1 consecutive rate limits yield exactly N
key-switch events followed by one backoff of delay baseDelay times the new
retry count, after which the tried-keys count is reset to zero; and in any
run starting with a fresh cycle, no cycle ever contains more than N key
switches. -/
theorem translateChunk_rotation_cycle_bound :
    (∀ (st : GeminiState) (rst : RetryState) (rest : List ApiOutcome),
      2 ≤ st.keyPool.length → rst.keysTried = 0 → rst.retries < maxRetries →
      ∃ st' : GeminiState, st'.keyPool = st.keyPool ∧
        tcRun st rst
            (List.replicate (st.keyPool.length + 1) ApiOutcome.rateLimit ++ rest) =
          ((tcRun st' ⟨rst.retries + 1, 0⟩ rest).1,
           (tcRun st' ⟨rst.retries + 1, 0⟩ rest).2.1,
           cycleEvents st.keyPool.length st.currentKeyIndex st.keyPool.length ++
             TCEvent.backoffWait (baseDelay * (rst.retries + 1)) ::
               (tcRun st' ⟨rst.retries + 1, 0⟩ rest).2.2)) ∧
    (∀ (m len idx : Nat), (cycleEvents len idx m).length = m ∧
      ∀ e ∈ cycleEvents len idx m, ∃ j, e = TCEvent.keySwitch j) ∧
    (∀ (outs : List ApiOutcome) (st : GeminiState) (rst : RetryState),
      rst.keysTried = 0 →
      (segRot (tcRun st rst outs).2.2).1 ≤ st.keyPool.length ∧
      ∀ c ∈ (segRot (tcRun st rst outs).2.2).2, c ≤ st.keyPool.length) := by
  refine ⟨?_, cycleEvents_shape, ?_⟩
  · intro st rst rest hN hk hr
    exact tcRun_cycle st.keyPool.length st rst rest hN hr (by omega)
  · intro outs st rst hk
    have h := segRot_tcRun_bound outs st rst
    exact ⟨by omega, h.2⟩

/-- Witness for C2: a two-key pool, three rate limits, two key switches then
a 3000 ms backoff. -/
theorem translateChunk_rotation_cycle_bound_witness :
    ∃ st' : GeminiState, st'.keyPool = ["k1", "k2"] ∧
      tcRun ⟨["k1", "k2"], 0, "k1"⟩ ⟨0, 0⟩
          [ApiOutcome.rateLimit, ApiOutcome.rateLimit, ApiOutcome.rateLimit] =
        ((tcRun st' ⟨1, 0⟩ []).1, (tcRun st' ⟨1, 0⟩ []).2.1,
         cycleEvents 2 0 2 ++
           TCEvent.backoffWait 3000 :: (tcRun st' ⟨1, 0⟩ []).2.2) :=
  translateChunk_rotation_cycle_bound.1 ⟨["k1", "k2"], 0, "k1"⟩ ⟨0, 0⟩ []
    (by decide) rfl (by decide)

/-- The outputs of the batch loop project back onto the input chunks. -/
theorem translateChunksAux_map :
    ∀ (cs : List Chunk) (glossary : List GlossaryEntry) (total : Nat)
      (oracle : Nat → ChunkOutcome) (i : Nat),
      (translateChunksAux glossary total oracle i cs).1.map TranslatedChunk.toChunk = cs := by
  intro cs
  induction cs with
  | nil => intro glossary total oracle i; simp [translateChunksAux]
  | cons c cs ih =>
    intro glossary total oracle i
    cases horacle : oracle i <;> simp [translateChunksAux, horacle, ih]

/-- The j-th output of the batch loop, depending on the j-th oracle
outcome. -/
theorem translateChunksAux_getD :
    ∀ (cs : List Chunk) (glossary : List GlossaryEntry) (total : Nat)
      (oracle : Nat → ChunkOutcome) (i j : Nat), j < cs.length →
      (translateChunksAux glossary total oracle i cs).1.getD j defaultTranslated =
        (match oracle (i + j) with
         | ChunkOutcome.ok t =>
           { toChunk := cs.getD j defaultChunk, translation := t
             matchedTerms := identifyTermsInText (cs.getD j defaultChunk).text glossary
             newTerms := [] }
         | ChunkOutcome.err m =>
           { toChunk := cs.getD j defaultChunk, translation := errMarker m
             matchedTerms := [], newTerms := [] }) := by
  intro cs
  induction cs with
  | nil => intro glossary total oracle i j hj; simp at hj
  | cons c cs ih =>
    intro glossary total oracle i j hj
    cases j with
    | zero =>
      cases horacle : oracle i <;> simp [translateChunksAux, horacle]
    | succ j =>
      have hj' : j < cs.length := by simpa using hj
      have hrec := ih glossary total oracle (i + 1) j hj'
      have harg : i + 1 + j = i + (j + 1) := by omega
      rw [harg] at hrec
      cases horacle : oracle i <;>
        simpa [translateChunksAux, horacle] using hrec

/-- C1: translateChunks returns exactly one output per input chunk in input
order; a chunk whose translation call fails is kept at its position with the
error-marker translation, so no chunk is dropped and the batch never
aborts. -/
theorem translateChunks_output_per_chunk :
    ∀ (chunks : List Chunk) (glossary : List GlossaryEntry) (oracle : Nat → ChunkOutcome),
      (translateChunksRun chunks glossary oracle).1.length = chunks.length ∧
      (translateChunksRun chunks glossary oracle).1.map TranslatedChunk.toChunk = chunks ∧
      ∀ j, j < chunks.length → ∀ m, oracle j = ChunkOutcome.err m →
        ((translateChunksRun chunks glossary oracle).1.getD j defaultTranslated).translation
            = errMarker m ∧
        ((translateChunksRun chunks glossary oracle).1.getD j defaultTranslated).toChunk
            = chunks.getD j defaultChunk := by
  intro chunks glossary oracle
  have hmap := translateChunksAux_map chunks glossary chunks.length oracle 0
  refine ⟨?_, hmap, ?_⟩
  · have := congrArg List.length hmap
    simpa using this
  · intro j hj m hm
    have h := translateChunksAux_getD chunks glossary chunks.length oracle 0 j hj
    rw [Nat.zero_add, hm] at h
    constructor
    · rw [show (translateChunksRun chunks glossary oracle).1
          = (translateChunksAux glossary chunks.length oracle 0 chunks).1 from rfl, h]
    · rw [show (translateChunksRun chunks glossary oracle).1
          = (translateChunksAux glossary chunks.length oracle 0 chunks).1 from rfl, h]

/-- Witness for C1 on a one-chunk batch whose translation call fails. -/
theorem translateChunks_output_per_chunk_witness :
    (translateChunksRun [progressChunkCex] [] progressOracleCex).1.length = 1 ∧
    ((translateChunksRun [progressChunkCex] [] progressOracleCex).1.getD 0
        defaultTranslated).translation = errMarker ['b'] := by
  have h := translateChunks_output_per_chunk [progressChunkCex] [] progressOracleCex
  exact ⟨h.1, (h.2.2 0 (by decide) ['b'] rfl).1⟩

/-- Progress events of the batch loop from index i on: one event per
successful chunk only. -/
theorem translateChunksAux_progress :
    ∀ (cs : List Chunk) (glossary : List GlossaryEntry) (total : Nat)
      (oracle : Nat → ChunkOutcome) (i : Nat),
      (translateChunksAux glossary total oracle i cs).2 =
        (List.range' i cs.length).filterMap fun j =>
          match oracle j with
          | ChunkOutcome.ok _ => some (j + 1, total)
          | ChunkOutcome.err _ => none := by
  intro cs
  induction cs with
  | nil => intro glossary total oracle i; simp [translateChunksAux]
  | cons c cs ih =>
    intro glossary total oracle i
    rw [List.length_cons, List.range'_succ, List.filterMap_cons]
    cases horacle : oracle i <;> simp [translateChunksAux, horacle, ih]

/-- C8 counterexample: on a one-chunk batch whose translation fails, no
progress event fires, refuting the claim that progress fires after every
chunk regardless of failure. -/
theorem translateChunks_progress_counterexample :
    (translateChunksRun [progressChunkCex] [] progressOracleCex).2 ≠ progressAllSpec 1 := by
  decide

/-- C8 amended: the progress callback fires exactly once after every
successfully translated chunk, with arguments (i + 1, total) in input order,
and does not fire for chunks marked failed. -/
theorem translateChunks_progress_on_success :
    ∀ (chunks : List Chunk) (glossary : List GlossaryEntry) (oracle : Nat → ChunkOutcome),
      (translateChunksRun chunks glossary oracle).2 = progressOkSpec oracle chunks.length := by
  intro chunks glossary oracle
  rw [show (translateChunksRun chunks glossary oracle).2
      = (translateChunksAux glossary chunks.length oracle 0 chunks).2 from rfl,
    translateChunksAux_progress, progressOkSpec, List.range_eq_range' chunks.length]

/-- The nested term-set fold of calculateCoverage equals one fold over the
flattened lowercased term names. -/
theorem coverage_fold_flatten :
    ∀ (tcs : List TranslatedChunk) (acc : List Str),
      tcs.foldl (fun s c => c.matchedTerms.foldl (fun s m => setAdd s (toLowerStr m.english)) s) acc
        = ((tcs.flatMap fun c => c.matchedTerms).map fun m => toLowerStr m.english).foldl
            setAdd acc := by
  intro tcs
  induction tcs with
  | nil => intro acc; simp
  | cons c tcs ih =>
    intro acc
    simp only [List.foldl_cons, List.flatMap_cons, List.map_append, List.foldl_append]
    rw [ih]
    simp [List.foldl_map]

/-- The running set stays duplicate-free. -/
theorem setAddFold_nodup :
    ∀ (l acc : List Str), acc.Nodup → (l.foldl setAdd acc).Nodup := by
  intro l
  induction l with
  | nil => intro acc h; simpa using h
  | cons x l ih =>
    intro acc h
    simp only [List.foldl_cons]
    refine ih _ ?_
    unfold setAdd
    split
    · exact h
    · next hx => simp [List.nodup_append, h, hx]

/-- The running set collects exactly the elements seen. -/
theorem setAddFold_toFinset :
    ∀ (l acc : List Str), (l.foldl setAdd acc).toFinset = acc.toFinset ∪ l.toFinset := by
  intro l
  induction l with
  | nil => intro acc; simp
  | cons x l ih =>
    intro acc
    simp only [List.foldl_cons, List.toFinset_cons]
    rw [ih]
    unfold setAdd
    split
    · next hx =>
      ext y
      simp only [Finset.mem_union, List.mem_toFinset, Finset.mem_insert]
      constructor
      · rintro (h1 | h1)
        · exact Or.inl h1
        · exact Or.inr (Or.inr h1)
      · rintro (h1 | rfl | h1)
        · exact Or.inl h1
        · exact Or.inl hx
        · exact Or.inr h1
    · next hx =>
      rw [List.toFinset_append]
      ext y
      simp
      tauto

/-- Size of the running set from empty: the number of distinct elements. -/
theorem setAddFold_length (l : List Str) : (l.foldl setAdd []).length = l.dedup.length := by
  have hnodup : (l.foldl setAdd []).Nodup := setAddFold_nodup l [] (by simp)
  have hfin : (l.foldl setAdd []).toFinset = l.toFinset := by
    rw [setAddFold_toFinset]
    simp
  calc (l.foldl setAdd []).length
      = (l.foldl setAdd []).toFinset.card := (List.toFinset_card_of_nodup hnodup).symm
    _ = l.toFinset.card := by rw [hfin]
    _ = l.dedup.length := List.card_toFinset l

/-- C7 counterexample: with a glossary holding the same English term twice
and one chunk matching it, calculateCoverage reports 1 of 2 (50 percent),
not the 1 of 1 (100 percent) that the fraction of distinct glossary terms
would give. -/
theorem calculateCoverage_counterexample :
    calculateCoverage coverageChunksCex coverageGlossaryCex
      ≠ coverageClaimSpec coverageChunksCex coverageGlossaryCex := by
  decide

/-- C7 amended: calculateCoverage counts the distinct lowercased matched
term names across all chunks, takes the total from the raw glossary length
with duplicates counted, and rounds the ratio (0 for an empty glossary). -/
theorem calculateCoverage_amended :
    ∀ (tcs : List TranslatedChunk) (glossary : List GlossaryEntry),
      calculateCoverage tcs glossary = coverageAmendedSpec tcs glossary := by
  intro tcs glossary
  simp only [calculateCoverage, coverageAmendedSpec]
  rw [coverage_fold_flatten, setAddFold_length]

/-- Membership in the stable descending insertion. -/
theorem insertDescLen_mem :
    ∀ (x : GlossaryEntry) (l : List GlossaryEntry) (z : GlossaryEntry),
      z ∈ insertDescLen x l ↔ z = x ∨ z ∈ l := by
  intro x l
  induction l with
  | nil => intro z; simp [insertDescLen]
  | cons y ys ih =>
    intro z
    unfold insertDescLen
    split
    · simp
    · simp only [List.mem_cons, ih]
      tauto

/-- The stable insertion keeps the list sorted by descending term length. -/
theorem insertDescLen_sorted :
    ∀ (x : GlossaryEntry) (l : List GlossaryEntry),
      List.Sorted (fun a b : GlossaryEntry => b.english.length ≤ a.english.length) l →
      List.Sorted (fun a b : GlossaryEntry => b.english.length ≤ a.english.length)
        (insertDescLen x l) := by
  intro x l
  induction l with
  | nil => intro _; simp [insertDescLen]
  | cons y ys ih =>
    intro hs
    rw [List.sorted_cons] at hs
    unfold insertDescLen
    split
    · next hle =>
      rw [List.sorted_cons]
      refine ⟨?_, List.sorted_cons.mpr hs⟩
      intro b hb
      rcases List.mem_cons.mp hb with rfl | hb
      · exact hle
      · exact le_trans (hs.1 b hb) hle
    · next hgt =>
      rw [List.sorted_cons]
      refine ⟨?_, ih hs.2⟩
      intro b hb
      rcases (insertDescLen_mem x ys b).mp hb with rfl | hb
      · omega
      · exact hs.1 b hb

/-- The glossary sort of identifyTermsInText is sorted by descending term
length. -/
theorem sortByLenDesc_sorted :
    ∀ l : List GlossaryEntry,
      List.Sorted (fun a b : GlossaryEntry => b.english.length ≤ a.english.length)
        (sortByLenDesc l) := by
  intro l
  induction l with
  | nil => simp [sortByLenDesc]
  | cons x xs ih => exact insertDescLen_sorted x _ ih

/-- An English-name-preserving filterMap gives a sublist on term lengths. -/
theorem filterMap_english_sublist (f : GlossaryEntry → Option TermMatch)
    (hf : ∀ e m, f e = some m → m.english = e.english) :
    ∀ l : List GlossaryEntry,
      ((l.filterMap f).map fun m => m.english.length).Sublist
        (l.map fun e => e.english.length) := by
  intro l
  induction l with
  | nil => simp
  | cons e l ih =>
    rw [List.filterMap_cons]
    cases hfe : f e with
    | none =>
      simp only [List.map_cons]
      exact ih.cons _
    | some m =>
      simp only [List.map_cons]
      rw [hf e m hfe]
      exact ih.cons₂ _

/-- C4 counterexample: on the specification's own example, identifyTermsInText
reports the compound term and additionally an overlapping match of the
contained term at an offset inside the compound occurrence. -/
theorem identifyTerms_overlap_counterexample :
    ((identifyTermsInText devText devGlossary).map fun m => (m.english, m.positions))
        = [("safety device".toList, [4]), ("device".toList, [11])] ∧
    (∃ m ∈ identifyTermsInText devText devGlossary,
      m.english = "device".toList ∧ m.positions = [11]) ∧
    4 ≤ 11 ∧ 11 + ("device".toList).length ≤ 4 + ("safety device".toList).length := by
  decide

/-- C4 amended: on the example, identifyTermsInText reports the compound
term first and the contained term second, including the overlapping inner
occurrence; the descending length sort only orders the result list, with
longer terms reported before shorter ones, and does not suppress overlapping
matches. -/
theorem identifyTerms_longest_first_amended :
    identifyTermsInText devText devGlossary =
      [{ english := "safety device".toList, chinese := "安全装置".toList
         positions := [4], source := "glossary" },
       { english := "device".toList, chinese := "装置".toList
         positions := [11], source := "glossary" }] ∧
    ∀ (text : Str) (glossary : List GlossaryEntry),
      List.Sorted (fun a b : Nat => b ≤ a)
        ((identifyTermsInText text glossary).map fun m => m.english.length) := by
  constructor
  · decide
  · intro text glossary
    have hs := sortByLenDesc_sorted glossary
    have hmap : List.Sorted (fun a b : Nat => b ≤ a)
        ((sortByLenDesc glossary).map fun e => e.english.length) := by
      rw [List.Sorted, List.pairwise_map]
      exact hs
    refine List.Pairwise.sublist ?_ hmap
    exact filterMap_english_sublist _
      (by
        intro e m h
        simp only at h
        split at h
        · exact absurd h (by simp)
        · rw [Option.some_inj] at h
          rw [← h])
      (sortByLenDesc glossary)

/-- Trimming never lengthens a string. -/
theorem trim_length_le (s : Str) : (trim s).length ≤ s.length := by
  unfold trim rtrim ltrim
  calc ((((s.dropWhile isWS).reverse.dropWhile isWS)).reverse).length
      = ((s.dropWhile isWS).reverse.dropWhile isWS).length := List.length_reverse _
    _ ≤ (s.dropWhile isWS).reverse.length := (List.dropWhile_sublist _).length_le
    _ = (s.dropWhile isWS).length := List.length_reverse _
    _ ≤ s.length := (List.dropWhile_sublist _).length_le

/-- The token estimate is monotone in length. -/
theorem estimateTokens_mono {s t : Str} (h : s.length ≤ t.length) :
    estimateTokens s ≤ estimateTokens t := by
  unfold estimateTokens
  omega

/-- Right trimming absorbs a trailing whitespace character. -/
theorem rtrim_append_ws (s : Str) (c : Char) (hc : isWS c = true) :
    rtrim (s ++ [c]) = rtrim s := by
  unfold rtrim
  rw [List.reverse_append]
  simp [hc]

/-- Trimming absorbs a trailing whitespace character. -/
theorem trim_append_ws (s : Str) (c : Char) (hc : isWS c = true) :
    trim (s ++ [c]) = trim s := by
  unfold trim
  by_cases h : ltrim s = []
  · have hall : ∀ x ∈ s, isWS x := fun x hx => List.dropWhile_eq_nil_iff.mp h x hx
    have h2 : ltrim (s ++ [c]) = [] := by
      unfold ltrim
      rw [List.dropWhile_eq_nil_iff]
      intro x hx
      rcases List.mem_append.mp hx with hx | hx
      · exact hall x hx
      · rw [List.mem_singleton.mp hx]
        exact hc
    rw [h, h2]
  · have hne : ¬ (s.dropWhile isWS).isEmpty = true := by
      simpa [List.isEmpty_iff, ltrim] using h
    have h2 : ltrim (s ++ [c]) = ltrim s ++ [c] := by
      unfold ltrim
      rw [List.dropWhile_append, if_neg hne]
    rw [h2, rtrim_append_ws _ _ hc]

/-- Trimming absorbs a trailing blank line. -/
theorem trim_append_nl2 (s : Str) : trim (s ++ nl2) = trim s := by
  have h : s ++ nl2 = (s ++ ['\n']) ++ ['\n'] := by simp [nl2]
  rw [h, trim_append_ws _ '\n' (by decide), trim_append_ws _ '\n' (by decide)]

/-- Trimming absorbs a trailing space. -/
theorem trim_append_space (s : Str) : trim (s ++ [' ']) = trim s :=
  trim_append_ws s ' ' (by decide)

/-- The text of a created chunk is the trimmed buffer. -/
theorem createChunk_text (t : Str) (p : Nat) : (createChunk t p).text = trim t := rfl

/-- Budget invariant of the sentence loop: emitted chunks stay within the
budget unless they are single sentences of some paragraph, and the pending
buffer likewise. -/
theorem sentenceFold_good (B : Nat) (Para : Str → Prop) :
    ∀ (ss : List Str) (out : List Chunk) (cc : Str) (pos : Nat),
      (∀ s ∈ ss, ∃ q, Para q ∧ s ∈ splitIntoSentences q) →
      (estimateTokens (trim cc) ≤ B ∨
        ∃ q s, Para q ∧ s ∈ splitIntoSentences q ∧ cc = s ++ [' ']) →
      (∀ c ∈ out, estimateTokens c.text ≤ B ∨
        ∃ q s, Para q ∧ s ∈ splitIntoSentences q ∧ c.text = trim s) →
      (∀ c ∈ (sentenceFold B ss (out, cc, pos)).1,
        estimateTokens c.text ≤ B ∨
        ∃ q s, Para q ∧ s ∈ splitIntoSentences q ∧ c.text = trim s) ∧
      (estimateTokens (trim (sentenceFold B ss (out, cc, pos)).2.1) ≤ B ∨
        ∃ q s, Para q ∧ s ∈ splitIntoSentences q ∧
          (sentenceFold B ss (out, cc, pos)).2.1 = s ++ [' ']) := by
  intro ss
  induction ss with
  | nil =>
    intro out cc pos _ hinv hout
    exact ⟨hout, hinv⟩
  | cons s ss ih =>
    intro out cc pos hss hinv hout
    obtain ⟨q0, hq0, hsq0⟩ := hss s (List.mem_cons_self s ss)
    have hss' : ∀ x ∈ ss, ∃ q, Para q ∧ x ∈ splitIntoSentences q :=
      fun x hx => hss x (List.mem_cons_of_mem s hx)
    simp only [sentenceFold]
    split
    · next hflush =>
      refine ih _ _ _ hss' (Or.inr ⟨q0, s, hq0, hsq0, rfl⟩) ?_
      intro c hcmem
      rcases List.mem_append.mp hcmem with hcmem | hcmem
      · exact hout c hcmem
      · rw [List.mem_singleton.mp hcmem, createChunk_text]
        rcases hinv with hle | ⟨q, s', hq, hs', rfl⟩
        · exact Or.inl hle
        · exact Or.inr ⟨q, s', hq, hs', by rw [trim_append_space]⟩
    · next hnoflush =>
      by_cases hcc : cc = []
      · subst hcc
        exact ih _ _ _ hss' (Or.inr ⟨q0, s, hq0, hsq0, by simp⟩) hout
      · have hle : estimateTokens (cc ++ s) ≤ B := by
          rcases not_and_or.mp hnoflush with h | h
          · omega
          · exact absurd hcc h
        refine ih _ _ _ hss' (Or.inl ?_) hout
        have h1 : cc ++ s ++ [' '] = (cc ++ s) ++ [' '] := by simp
        rw [h1, trim_append_space]
        exact le_trans (estimateTokens_mono (trim_length_le _)) hle

/-- Budget invariant of the paragraph loop. -/
theorem paraFold_good (B : Nat) (Para : Str → Prop) :
    ∀ (ps : List Str) (out : List Chunk) (cc : Str) (pos : Nat),
      (∀ p ∈ ps, Para p) →
      (estimateTokens (trim cc) ≤ B ∨
        ∃ q s, Para q ∧ s ∈ splitIntoSentences q ∧ cc = s ++ [' ']) →
      (∀ c ∈ out, estimateTokens c.text ≤ B ∨
        ∃ q s, Para q ∧ s ∈ splitIntoSentences q ∧ c.text = trim s) →
      (∀ c ∈ (paraFold B ps (out, cc, pos)).1,
        estimateTokens c.text ≤ B ∨
        ∃ q s, Para q ∧ s ∈ splitIntoSentences q ∧ c.text = trim s) ∧
      (estimateTokens (trim (paraFold B ps (out, cc, pos)).2.1) ≤ B ∨
        ∃ q s, Para q ∧ s ∈ splitIntoSentences q ∧
          (paraFold B ps (out, cc, pos)).2.1 = s ++ [' ']) := by
  intro ps
  induction ps with
  | nil =>
    intro out cc pos _ hinv hout
    exact ⟨hout, hinv⟩
  | cons p ps ih =>
    intro out cc pos hps hinv hout
    have hp : Para p := hps p (List.mem_cons_self p ps)
    have hps' : ∀ x ∈ ps, Para x := fun x hx => hps x (List.mem_cons_of_mem p hx)
    have hout1 : ∀ c ∈ out ++ [createChunk cc pos],
        estimateTokens c.text ≤ B ∨
        ∃ q s, Para q ∧ s ∈ splitIntoSentences q ∧ c.text = trim s := by
      intro c hcmem
      rcases List.mem_append.mp hcmem with hcmem | hcmem
      · exact hout c hcmem
      · rw [List.mem_singleton.mp hcmem, createChunk_text]
        rcases hinv with hle | ⟨q, s', hq, hs', rfl⟩
        · exact Or.inl hle
        · exact Or.inr ⟨q, s', hq, hs', by rw [trim_append_space]⟩
    by_cases h1 : cc ≠ [] ∧ B < estimateTokens (cc ++ p)
    · by_cases h2 : B < estimateTokens p
      · simp only [paraFold, if_pos h1, if_pos h2]
        have hsf := sentenceFold_good B Para (splitIntoSentences p)
          (out ++ [createChunk cc pos]) [] (pos + 1)
          (fun s hsm => ⟨p, hp, hsm⟩) (Or.inl (Nat.zero_le B)) hout1
        exact ih _ _ _ hps' hsf.2 hsf.1
      · simp only [paraFold, if_pos h1, if_neg h2, List.nil_append]
        refine ih _ _ _ hps' (Or.inl ?_) hout1
        rw [show p ++ nl2 = p ++ nl2 from rfl, trim_append_nl2]
        exact le_trans (estimateTokens_mono (trim_length_le _)) (Nat.not_lt.mp h2)
    · by_cases h2 : B < estimateTokens p
      · simp only [paraFold, if_neg h1, if_pos h2]
        have hsf := sentenceFold_good B Para (splitIntoSentences p) out cc pos
          (fun s hsm => ⟨p, hp, hsm⟩) hinv hout
        exact ih _ _ _ hps' hsf.2 hsf.1
      · simp only [paraFold, if_neg h1, if_neg h2]
        refine ih _ _ _ hps' (Or.inl ?_) hout
        have hassoc : cc ++ p ++ nl2 = (cc ++ p) ++ nl2 := by simp
        rw [hassoc, trim_append_nl2]
        refine le_trans (estimateTokens_mono (trim_length_le _)) ?_
        by_cases hcc : cc = []
        · subst hcc
          simpa using Nat.not_lt.mp h2
        · rcases not_and_or.mp h1 with h | h
          · exact absurd hcc h
          · exact Nat.not_lt.mp h

/-- C3: every chunk splitIntoChunks emits fits the token budget, except a
chunk that is the trim of a single sentence of some paragraph whose estimate
alone exceeds the budget. -/
theorem splitIntoChunks_budget :
    ∀ (text : Str) (B : Nat), ∀ c ∈ splitIntoChunks text B,
      estimateTokens c.text ≤ B ∨
      (∃ p ∈ paragraphsOf text, ∃ s ∈ splitIntoSentences p,
        c.text = trim s ∧ B < estimateTokens c.text) := by
  intro text B c hc
  have h := paraFold_good B (fun p => p ∈ paragraphsOf text) (paragraphsOf text)
    [] [] 0 (fun p hp => hp) (Or.inl (Nat.zero_le B)) (by simp)
  have hgood : estimateTokens c.text ≤ B ∨
      ∃ q s, q ∈ paragraphsOf text ∧ s ∈ splitIntoSentences q ∧ c.text = trim s := by
    simp only [splitIntoChunks] at hc
    split at hc
    · exact h.1 c hc
    · rcases List.mem_append.mp hc with hcm | hcm
      · exact h.1 c hcm
      · rw [List.mem_singleton.mp hcm, createChunk_text]
        rcases h.2 with hle | ⟨q, s', hq, hs', heq⟩
        · exact Or.inl hle
        · exact Or.inr ⟨q, s', hq, hs', by rw [heq, trim_append_space]⟩
  by_cases hB : estimateTokens c.text ≤ B
  · exact Or.inl hB
  · rcases hgood with hle | ⟨q, s', hq, hs', heq⟩
    · exact Or.inl hle
    · exact Or.inr ⟨q, hq, s', hs', heq, Nat.not_le.mp hB⟩

/-- Witness for C3: the single chunk of a two-character input within a
budget of five tokens. -/
theorem splitIntoChunks_budget_witness :
    ((splitIntoChunks "ab".toList 5).headD defaultChunk ∈ splitIntoChunks "ab".toList 5) ∧
    (estimateTokens ((splitIntoChunks "ab".toList 5).headD defaultChunk).text ≤ 5 ∨
      (∃ p ∈ paragraphsOf "ab".toList, ∃ s ∈ splitIntoSentences p,
        ((splitIntoChunks "ab".toList 5).headD defaultChunk).text = trim s ∧
          5 < estimateTokens ((splitIntoChunks "ab".toList 5).headD defaultChunk).text)) :=
  ⟨by decide, splitIntoChunks_budget "ab".toList 5 _ (by decide)⟩

/-- After the first non-empty run, code-side gap collection agrees with the
specification chain, provided no later coordinate equals the sentinel. -/
theorem collectGaps_spec_aux :
    ∀ (items : List RunItem) (y : ℚ), y ≠ -1 →
      (∀ it ∈ items, ¬(trim it.str).isEmpty = true → it.transform5 ≠ -1) →
      collectGaps y items = collectGapsSpecAux y
        ((items.filter fun it => !(trim it.str).isEmpty).map (·.transform5)) := by
  intro items
  induction items with
  | nil =>
    intro y _ _
    simp [collectGaps, collectGapsSpecAux]
  | cons it rest ih =>
    intro y hy h
    have hrest : ∀ x ∈ rest, ¬(trim x.str).isEmpty = true → x.transform5 ≠ -1 :=
      fun x hx => h x (List.mem_cons_of_mem it hx)
    by_cases hblank : (trim it.str).isEmpty = true
    · have hfilt : ((it :: rest).filter fun x => !(trim x.str).isEmpty)
          = rest.filter fun x => !(trim x.str).isEmpty := by
        rw [List.filter_cons]
        rw [if_neg (by simpa using hblank)]
      simp only [collectGaps, if_pos hblank, hfilt]
      exact ih y hy hrest
    · have hy2 : it.transform5 ≠ -1 := h it (List.mem_cons_self it rest) hblank
      have hfilt : ((it :: rest).filter fun x => !(trim x.str).isEmpty)
          = it :: rest.filter fun x => !(trim x.str).isEmpty := by
        rw [List.filter_cons]
        rw [if_pos (by simpa using hblank)]
      simp only [collectGaps, if_neg hblank, hfilt, List.map_cons, collectGapsSpecAux]
      rw [if_pos hy, ih it.transform5 hy2 hrest]

/-- From the sentinel start, code-side gap collection agrees with the
specification, provided no non-empty run sits at the sentinel coordinate. -/
theorem collectGaps_eq_spec :
    ∀ items : List RunItem,
      (∀ it ∈ items, ¬(trim it.str).isEmpty = true → it.transform5 ≠ -1) →
      collectGaps (-1) items = collectGapsSpec items := by
  intro items
  induction items with
  | nil =>
    intro _
    simp [collectGaps, collectGapsSpec]
  | cons it rest ih =>
    intro h
    have hrest : ∀ x ∈ rest, ¬(trim x.str).isEmpty = true → x.transform5 ≠ -1 :=
      fun x hx => h x (List.mem_cons_of_mem it hx)
    by_cases hblank : (trim it.str).isEmpty = true
    · have hfilt : ((it :: rest).filter fun x => !(trim x.str).isEmpty)
          = rest.filter fun x => !(trim x.str).isEmpty := by
        rw [List.filter_cons]
        rw [if_neg (by simpa using hblank)]
      simp only [collectGaps, if_pos hblank, collectGapsSpec, hfilt]
      rw [ih hrest]
      rfl
    · have hy2 : it.transform5 ≠ -1 := h it (List.mem_cons_self it rest) hblank
      have hfilt : ((it :: rest).filter fun x => !(trim x.str).isEmpty)
          = it :: rest.filter fun x => !(trim x.str).isEmpty := by
        rw [List.filter_cons]
        rw [if_pos (by simpa using hblank)]
      simp only [collectGaps, if_neg hblank, if_neg (by simp : ¬ (-1 : ℚ) ≠ -1),
        List.nil_append, collectGapsSpec, hfilt, List.map_cons]
      exact collectGaps_spec_aux rest it.transform5 hy2 hrest

/-- C6 counterexample: a page whose first run has the y-coordinate -1
collides with the sentinel; the gap to the next run is dropped, the code
falls back to the fixed thresholds while the specification formula would use
percentiles. -/
theorem analyzeDocumentLayout_counterexample :
    analyzeDocumentLayout layoutItemsCex ≠ analyzeDocumentLayoutSpec layoutItemsCex := by
  have hs : (trim ['a']).isEmpty = false := by decide
  have hcode : collectGaps (-1) layoutItemsCex = [20, 30, 40, 50] := by
    norm_num [layoutItemsCex, collectGaps, hs, qabs]
  have hspec : collectGapsSpec layoutItemsCex = [11, 20, 30, 40, 50] := by
    norm_num [layoutItemsCex, collectGapsSpec, collectGapsSpecAux, hs, qabs]
  rw [analyzeDocumentLayout, analyzeDocumentLayoutSpec, hcode, hspec]
  norm_num [thresholdsOfGaps, sortGaps, insertAsc, percentileIdx, qmax,
    LayoutThresholds.mk.injEq]

/-- C6 amended: analyzeDocumentLayout computes the described gap collection,
fallback and percentile thresholds, provided no non-empty run has the
sentinel y-coordinate -1 (such a run resets the tracker and the following
gap is not collected). -/
theorem analyzeDocumentLayout_amended :
    ∀ items : List RunItem,
      (∀ it ∈ items, ¬(trim it.str).isEmpty = true → it.transform5 ≠ -1) →
      analyzeDocumentLayout items = analyzeDocumentLayoutSpec items := by
  intro items h
  unfold analyzeDocumentLayout analyzeDocumentLayoutSpec
  rw [collectGaps_eq_spec items h]

/-- Witness for C6 on a two-run page away from the sentinel. -/
theorem analyzeDocumentLayout_amended_witness :
    analyzeDocumentLayout [⟨['a'], 10⟩, ⟨['b'], 20⟩]
      = analyzeDocumentLayoutSpec [⟨['a'], 10⟩, ⟨['b'], 20⟩] :=
  analyzeDocumentLayout_amended [⟨['a'], 10⟩, ⟨['b'], 20⟩]
    (by
      intro it hit _
      rcases List.mem_cons.mp hit with rfl | hit
      · norm_num
      · rcases List.mem_cons.mp hit with rfl | hit
        · norm_num
        · simp at hit)

/-- Trimming absorbs a leading whitespace character. -/
theorem trim_cons_ws (c : Char) (s : Str) (hc : isWS c = true) :
    trim (c :: s) = trim s := by
  unfold trim ltrim
  rw [List.dropWhile_cons, if_pos hc]

/-- Trimming absorbs any leading newline run. -/
theorem trim_replicate_nl_front : ∀ (a : Nat) (s : Str),
    trim (List.replicate a '\n' ++ s) = trim s := by
  intro a
  induction a with
  | zero => intro s; simp
  | succ a ih =>
    intro s
    rw [List.replicate_succ, List.cons_append, trim_cons_ws _ _ (by decide)]
    exact ih s

/-- Trimming absorbs any trailing newline run. -/
theorem trim_append_replicate_nl : ∀ (b : Nat) (s : Str),
    trim (s ++ List.replicate b '\n') = trim s := by
  intro b
  induction b with
  | zero => intro s; simp
  | succ b ih =>
    intro s
    rw [List.replicate_succ, show s ++ ('\n' :: List.replicate b '\n')
        = (s ++ ['\n']) ++ List.replicate b '\n' from by simp,
      ih (s ++ ['\n']), trim_append_ws _ _ (by decide)]

/-- A string with non-whitespace first character is non-empty. -/
theorem firstCharNotWS_ne_nil {s : Str} (h : firstCharNotWS s = true) : s ≠ [] := by
  cases s with
  | nil => simp [firstCharNotWS] at h
  | cons c rest => simp

/-- The first-character test only looks at the head. -/
theorem firstCharNotWS_append {s : Str} (t : Str) (h : s ≠ []) :
    firstCharNotWS (s ++ t) = firstCharNotWS s := by
  cases s with
  | nil => exact absurd rfl h
  | cons c rest => simp [firstCharNotWS]

/-- A string that starts and ends with non-whitespace is its own trim. -/
theorem trim_eq_self {s : Str} (h1 : firstCharNotWS s = true)
    (h2 : firstCharNotWS s.reverse = true) : trim s = s := by
  have hlt : ltrim s = s := by
    cases s with
    | nil => rfl
    | cons c rest =>
      unfold ltrim
      rw [List.dropWhile_cons, if_neg (by simpa [firstCharNotWS] using h1)]
  have hrt : rtrim s = s := by
    unfold rtrim
    rcases hr : s.reverse with _ | ⟨d, rest'⟩
    · simpa using congrArg List.reverse hr
    · rw [List.dropWhile_cons, if_neg (by
        rw [hr] at h2
        simpa [firstCharNotWS] using h2)]
      rw [← hr]
      exact List.reverse_reverse s
  unfold trim
  rw [hlt, hrt]

/-- Components of the clean-paragraph test. -/
theorem cleanPara_parts {p : Str} (h : cleanPara p = true) :
    firstCharNotWS p = true ∧ firstCharNotWS p.reverse = true ∧ hasNl2 p = false := by
  simp only [cleanPara, Bool.and_eq_true, Bool.not_eq_true'] at h
  exact ⟨h.1.1, h.1.2, h.2⟩

/-- A clean paragraph does not start with a newline. -/
theorem cleanPara_head_ne_nl {p : Str} (h : cleanPara p = true) :
    p.head? ≠ some '\n' := by
  have h1 := (cleanPara_parts h).1
  cases p with
  | nil => simp
  | cons c rest =>
    simp only [List.head?_cons]
    intro hc
    injection hc with hc
    subst hc
    simp [firstCharNotWS, isWS] at h1

/-- A clean paragraph does not end with a newline. -/
theorem cleanPara_last_ne_nl {p : Str} (h : cleanPara p = true) :
    p.reverse.head? ≠ some '\n' := by
  have h2 := (cleanPara_parts h).2.1
  rcases hr : p.reverse with _ | ⟨d, rest'⟩
  · simp
  · rw [hr] at h2
    simp only [List.head?_cons]
    intro hc
    injection hc with hc
    subst hc
    simp [firstCharNotWS, isWS] at h2

/-- A join of clean paragraphs over a non-empty group is non-empty. -/
theorem joinStrs_ne_nil : ∀ (g : List Str), g ≠ [] →
    (∀ q ∈ g, cleanPara q = true) → joinStrs nl2 g ≠ [] := by
  intro g
  match g with
  | [] => intro h _; exact absurd rfl h
  | [q] =>
    intro _ hc
    exact firstCharNotWS_ne_nil (cleanPara_parts (hc q (by simp))).1
  | q :: r :: gs =>
    intro _ hc
    have hq : q ≠ [] := firstCharNotWS_ne_nil (cleanPara_parts (hc q (by simp))).1
    simp only [joinStrs, List.append_assoc]
    intro hcontr
    exact hq (List.append_eq_nil.mp hcontr).1

/-- A join of clean paragraphs starts with a non-whitespace character. -/
theorem joinStrs_first : ∀ (g : List Str), g ≠ [] →
    (∀ q ∈ g, cleanPara q = true) → firstCharNotWS (joinStrs nl2 g) = true := by
  intro g
  match g with
  | [] => intro h _; exact absurd rfl h
  | [q] =>
    intro _ hc
    exact (cleanPara_parts (hc q (by simp))).1
  | q :: r :: gs =>
    intro _ hc
    have hq : q ≠ [] := firstCharNotWS_ne_nil (cleanPara_parts (hc q (by simp))).1
    simp only [joinStrs, List.append_assoc]
    rw [firstCharNotWS_append _ hq]
    exact (cleanPara_parts (hc q (by simp))).1

/-- A join of clean paragraphs ends with a non-whitespace character. -/
theorem joinStrs_last : ∀ (g : List Str), g ≠ [] →
    (∀ q ∈ g, cleanPara q = true) →
    firstCharNotWS (joinStrs nl2 g).reverse = true := by
  intro g
  match g with
  | [] => intro h _; exact absurd rfl h
  | [q] =>
    intro _ hc
    exact (cleanPara_parts (hc q (by simp))).2.1
  | q :: r :: gs =>
    intro _ hc
    have hrest : ∀ x ∈ r :: gs, cleanPara x = true := by
      intro x hx
      exact hc x (List.mem_cons_of_mem q hx)
    have hne : joinStrs nl2 (r :: gs) ≠ [] := joinStrs_ne_nil _ (by simp) hrest
    have hrev : (joinStrs nl2 (q :: r :: gs)).reverse
        = (joinStrs nl2 (r :: gs)).reverse ++ (nl2.reverse ++ q.reverse) := by
      simp [joinStrs]
    rw [hrev, firstCharNotWS_append _ (by simpa using hne)]
    exact joinStrs_last (r :: gs) (by simp) hrest

/-- A join of clean paragraphs is its own trim. -/
theorem trim_joinStrs (g : List Str) (hne : g ≠ [])
    (hc : ∀ q ∈ g, cleanPara q = true) : trim (joinStrs nl2 g) = joinStrs nl2 g :=
  trim_eq_self (joinStrs_first g hne hc) (joinStrs_last g hne hc)

/-- Appending one paragraph to a non-empty joined group. -/
theorem joinStrs_append_one : ∀ (g : List Str) (p : Str), g ≠ [] →
    joinStrs nl2 (g ++ [p]) = joinStrs nl2 g ++ nl2 ++ p := by
  intro g
  match g with
  | [] => intro p h; exact absurd rfl h
  | [q] => intro p _; simp [joinStrs]
  | q :: r :: gs =>
    intro p _
    have h2 := joinStrs_append_one (r :: gs) p (by simp)
    calc joinStrs nl2 ((q :: r :: gs) ++ [p])
        = q ++ nl2 ++ joinStrs nl2 ((r :: gs) ++ [p]) := rfl
      _ = q ++ nl2 ++ (joinStrs nl2 (r :: gs) ++ nl2 ++ p) := by rw [h2]
      _ = q ++ nl2 ++ joinStrs nl2 (r :: gs) ++ nl2 ++ p := by simp

/-- The join of a clean group has the paragraph shape of the group. -/
theorem ParaShape_joinStrs : ∀ (g : List Str),
    (∀ q ∈ g, cleanPara q = true) → ParaShape (joinStrs nl2 g) g := by
  intro g
  match g with
  | [] => intro _; exact ParaShape.nil
  | [q] =>
    intro hc
    exact ParaShape.single q (hc q (by simp))
  | q :: r :: gs =>
    intro hc
    have hshape := ParaShape_joinStrs (r :: gs) fun x hx => hc x (List.mem_cons_of_mem q hx)
    have : joinStrs nl2 (q :: r :: gs)
        = q ++ List.replicate 2 '\n' ++ joinStrs nl2 (r :: gs) := by
      simp [joinStrs, nl2, List.replicate]
    rw [this]
    exact ParaShape.cons q 2 _ r gs (hc q (by simp)) (le_refl 2) hshape

/-- The first paragraph of a shaped text is clean and is a prefix. -/
theorem ParaShape_head {t : Str} {q : Str} {qs : List Str}
    (h : ParaShape t (q :: qs)) : cleanPara q = true ∧ ∃ u, t = q ++ u := by
  cases h with
  | single p hp => exact ⟨hp, [], by simp⟩
  | cons p k t' q' qs' hp hk hshape =>
    exact ⟨hp, List.replicate k '\n' ++ t', by simp⟩

/-- A shaped text with at least one paragraph does not start with a
newline. -/
theorem ParaShape_head_ne_nl {t : Str} {q : Str} {qs : List Str}
    (h : ParaShape t (q :: qs)) : t.head? ≠ some '\n' := by
  obtain ⟨hq, u, rfl⟩ := ParaShape_head h
  cases hqnil : q with
  | nil =>
    rw [hqnil] at hq
    exact absurd hq (by simp [cleanPara, firstCharNotWS])
  | cons c rest =>
    rw [hqnil] at hq
    have := cleanPara_head_ne_nl hq
    simpa using this

/-- Joining two shaped texts with a newline run of length at least two. -/
theorem ParaShape_append {s : Str} {qs : List Str} (hs : ParaShape s qs)
    (k : Nat) (hk : 2 ≤ k) :
    ∀ {t : Str} {r : Str} {rs : List Str}, ParaShape t (r :: rs) → qs ≠ [] →
      ParaShape (s ++ List.replicate k '\n' ++ t) (qs ++ r :: rs) := by
  induction hs with
  | nil => intro t r rs _ hne; exact absurd rfl hne
  | single p hp =>
    intro t r rs ht _
    exact ParaShape.cons p k t r rs hp hk ht
  | cons p k' t' q' qs' hp hk' hshape ih =>
    intro t r rs ht _
    have hrec := ih ht (by simp)
    rw [show p ++ List.replicate k' '\n' ++ t' ++ List.replicate k '\n' ++ t
        = p ++ List.replicate k' '\n' ++ (t' ++ List.replicate k '\n' ++ t) from by simp]
    exact ParaShape.cons p k' _ q' (qs' ++ r :: rs) hp hk' (by simpa using hrec)

/-- Components of a negative blank-line test on a cons cell. -/
theorem hasNl2_cons_false {c : Char} {p : Str} (h : hasNl2 (c :: p) = false) :
    ¬(c = '\n' ∧ p.head? = some '\n') ∧ hasNl2 p = false := by
  simp only [hasNl2, Bool.or_eq_false_iff, Bool.and_eq_false_iff] at h
  refine ⟨?_, h.2⟩
  rcases h.1 with h1 | h1 <;> intro hcon
  · simp [hcon.1] at h1
  · simp [hcon.2] at h1

/-- The paragraph-splitting scan ignores the exact fuel, given enough;
bounded-length strong induction form. -/
theorem splitParasAux_fuel_aux : ∀ (n : Nat) (l acc : Str), l.length ≤ n →
    ∀ (f1 f2 : Nat), l.length ≤ f1 → l.length ≤ f2 →
    splitParasAux acc l f1 = splitParasAux acc l f2 := by
  intro n
  induction n with
  | zero =>
    intro l acc hln f1 f2 _ _
    have : l = [] := List.length_eq_zero.mp (Nat.le_zero.mp hln)
    subst this
    cases f1 <;> cases f2 <;> first | rfl | simp [splitParasAux]
  | succ n ihn =>
    intro l acc hln f1 f2 h1 h2
    cases l with
    | nil => cases f1 <;> cases f2 <;> first | rfl | simp [splitParasAux]
    | cons c rest =>
      cases f1 with
      | zero => simp at h1
      | succ a =>
        cases f2 with
        | zero => simp at h2
        | succ b =>
          simp only [splitParasAux]
          split
          · have hd : (rest.dropWhile (· = '\n')).length ≤ rest.length :=
              (List.dropWhile_sublist _).length_le
            rw [ihn (rest.dropWhile (· = '\n')) []
              (by simp at hln; omega) a b (by simp at h1; omega) (by simp at h2; omega)]
          · rw [ihn rest (c :: acc) (by simp at hln; omega) a b
              (by simp at h1; omega) (by simp at h2; omega)]

/-- The paragraph-splitting scan ignores the exact fuel, given enough. -/
theorem splitParasAux_fuel (l acc : Str) (f1 f2 : Nat)
    (h1 : l.length ≤ f1) (h2 : l.length ≤ f2) :
    splitParasAux acc l f1 = splitParasAux acc l f2 :=
  splitParasAux_fuel_aux l.length l acc (le_refl _) f1 f2 h1 h2

/-- Dropping a newline run reaches the first non-newline character. -/
theorem dropWhile_replicate_nl : ∀ (m : Nat) (t : Str), t.head? ≠ some '\n' →
    (List.replicate m '\n' ++ t).dropWhile (· = '\n') = t := by
  intro m
  induction m with
  | zero =>
    intro t ht
    rw [List.replicate_zero, List.nil_append]
    cases t with
    | nil => rfl
    | cons c rest =>
      rw [List.dropWhile_cons, if_neg (by simpa using ht)]
  | succ m ih =>
    intro t ht
    rw [List.replicate_succ, List.cons_append, List.dropWhile_cons,
      if_pos (by simp)]
    exact ih t ht

/-- The scan emits a single piece over a text with no blank line. -/
theorem splitParasAux_noSplit : ∀ (p acc : Str) (fuel : Nat),
    hasNl2 p = false → p.length ≤ fuel →
    splitParasAux acc p fuel = [acc.reverse ++ p] := by
  intro p
  induction p with
  | nil =>
    intro acc fuel _ _
    cases fuel <;> simp [splitParasAux]
  | cons c p' ih =>
    intro acc fuel h hf
    cases fuel with
    | zero => simp at hf
    | succ f =>
      simp only [splitParasAux]
      rw [if_neg (hasNl2_cons_false h).1]
      rw [ih (c :: acc) f (hasNl2_cons_false h).2 (by simpa using hf)]
      simp

/-- The scan over a clean piece, a separator run and a remainder emits the
piece and continues on the remainder. -/
theorem splitParasAux_sep : ∀ (p acc : Str) (k : Nat) (t : Str) (fuel : Nat),
    hasNl2 p = false → p.reverse.head? ≠ some '\n' → 2 ≤ k →
    t.head? ≠ some '\n' → (p ++ List.replicate k '\n' ++ t).length ≤ fuel →
    splitParasAux acc (p ++ List.replicate k '\n' ++ t) fuel
      = (acc.reverse ++ p) :: splitParasAux [] t t.length := by
  intro p
  induction p with
  | nil =>
    intro acc k t fuel _ _ hk ht hf
    obtain ⟨k2, rfl⟩ : ∃ k2, k = k2 + 2 := ⟨k - 2, by omega⟩
    rw [List.nil_append] at hf ⊢
    cases fuel with
    | zero => simp at hf
    | succ f =>
      have hrep : List.replicate (k2 + 2) '\n' ++ t
          = '\n' :: (List.replicate (k2 + 1) '\n' ++ t) := by
        rw [List.replicate_succ, List.cons_append]
      rw [hrep]
      simp only [splitParasAux]
      split
      · rw [dropWhile_replicate_nl (k2 + 1) t ht,
          splitParasAux_fuel t [] f t.length (by simp at hf; omega) (le_refl _)]
        simp
      · next hneg =>
        exfalso
        apply hneg
        refine ⟨?_, ?_⟩ <;> simp [List.replicate_succ]
  | cons c p' ih =>
    intro acc k t fuel h hlast hk ht hf
    cases fuel with
    | zero => simp at hf
    | succ f =>
      have hsplit : (c :: p') ++ List.replicate k '\n' ++ t
          = c :: (p' ++ List.replicate k '\n' ++ t) := by simp
      rw [hsplit] at hf ⊢
      have hcond : ¬(c = '\n' ∧ (p' ++ List.replicate k '\n' ++ t).head? = some '\n') := by
        rcases p' with _ | ⟨d, p''⟩
        · intro hcon
          apply hlast
          rw [hcon.1]
          simp
        · intro hcon
          have hd : d = '\n' := by
            have := hcon.2
            simpa using this
          exact (hasNl2_cons_false h).1 ⟨hcon.1, by simp [hd]⟩
      simp only [splitParasAux]
      rw [if_neg hcond]
      have hlast' : p'.reverse.head? ≠ some '\n' := by
        rcases p' with _ | ⟨d, p''⟩
        · simp
        · rcases hrev : (d :: p'').reverse with _ | ⟨x, xs⟩
          · exact absurd hrev (by simp)
          · rw [show (c :: d :: p'').reverse = (d :: p'').reverse ++ [c] from by simp,
              hrev] at hlast
            simpa using hlast
      rw [ih (c :: acc) k t f (hasNl2_cons_false h).2 hlast' hk ht (by simp at hf ⊢; omega)]
      simp

/-- The non-blank paragraphs of a shaped text are exactly its shape. -/
theorem paragraphsOf_of_shape : ∀ {s : Str} {qs : List Str},
    ParaShape s qs → paragraphsOf s = qs := by
  intro s qs h
  induction h with
  | nil => decide
  | single p hp =>
    have hparts := cleanPara_parts hp
    unfold paragraphsOf splitParas
    rw [splitParasAux_noSplit p [] p.length hparts.2.2 (le_refl _)]
    simp only [List.reverse_nil, List.nil_append]
    rw [List.filter_cons]
    rw [if_pos (by
      rw [trim_eq_self hparts.1 hparts.2.1]
      simpa [List.isEmpty_iff] using firstCharNotWS_ne_nil hparts.1)]
    simp
  | cons p k t q qs hp hk hshape ih =>
    have hparts := cleanPara_parts hp
    unfold paragraphsOf splitParas
    rw [splitParasAux_sep p [] k t _ hparts.2.2 (cleanPara_last_ne_nl hp) hk
      (ParaShape_head_ne_nl hshape) (le_refl _)]
    simp only [List.reverse_nil, List.nil_append]
    rw [List.filter_cons]
    rw [if_pos (by
      rw [trim_eq_self hparts.1 hparts.2.1]
      simpa [List.isEmpty_iff] using firstCharNotWS_ne_nil hparts.1)]
    unfold paragraphsOf splitParas at ih
    rw [ih]

/-- Grouping invariant of the paragraph loop on clean paragraphs that all
fit the budget: every emitted chunk text is the blank-line join of a
non-empty group of consecutive clean paragraphs, the pending buffer is a
joined group followed by a blank line, and the groups concatenate to the
processed paragraphs. -/
theorem paraFold_groups (B : Nat) :
    ∀ (ps : List Str) (out : List Chunk) (cc : Str) (pos : Nat)
      (G : List (List Str)) (g : List Str),
      (∀ p ∈ ps, cleanPara p = true ∧ estimateTokens p ≤ B) →
      out.map Chunk.text = G.map (joinStrs nl2) →
      (∀ h ∈ G, h ≠ [] ∧ ∀ q ∈ h, cleanPara q = true) →
      ((cc = [] ∧ g = []) ∨
        (g ≠ [] ∧ (∀ q ∈ g, cleanPara q = true) ∧ cc = joinStrs nl2 g ++ nl2)) →
      ∃ (G2 : List (List Str)) (g2 : List Str),
        (paraFold B ps (out, cc, pos)).1.map Chunk.text = G2.map (joinStrs nl2) ∧
        (∀ h ∈ G2, h ≠ [] ∧ ∀ q ∈ h, cleanPara q = true) ∧
        (((paraFold B ps (out, cc, pos)).2.1 = [] ∧ g2 = []) ∨
          (g2 ≠ [] ∧ (∀ q ∈ g2, cleanPara q = true) ∧
            (paraFold B ps (out, cc, pos)).2.1 = joinStrs nl2 g2 ++ nl2)) ∧
        G2.flatten ++ g2 = G.flatten ++ g ++ ps := by
  intro ps
  induction ps with
  | nil =>
    intro out cc pos G g _ hout hG hbuf
    exact ⟨G, g, hout, hG, hbuf, by simp⟩
  | cons p ps ih =>
    intro out cc pos G g hps hout hG hbuf
    have hp := hps p (List.mem_cons_self p ps)
    have hps' : ∀ x ∈ ps, cleanPara x = true ∧ estimateTokens x ≤ B :=
      fun x hx => hps x (List.mem_cons_of_mem p hx)
    have h2 : ¬ B < estimateTokens p := Nat.not_lt.mpr hp.2
    by_cases h1 : cc ≠ [] ∧ B < estimateTokens (cc ++ p)
    · -- flush, then append the paragraph to a fresh buffer
      rcases hbuf with ⟨hcc, _⟩ | ⟨hgne, hgc, hcceq⟩
      · exact absurd hcc h1.1
      · simp only [paraFold, if_pos h1, if_neg h2]
        have htext : (createChunk cc pos).text = joinStrs nl2 g := by
          rw [createChunk_text, hcceq, trim_append_nl2, trim_joinStrs g hgne hgc]
        obtain ⟨G2, g2, a, b, c, d⟩ := ih (out ++ [createChunk cc pos])
          ([] ++ p ++ nl2) (pos + 1) (G ++ [g]) [p] hps'
          (by simp [htext, hout])
          (by
            intro h hh
            rcases List.mem_append.mp hh with hh | hh
            · exact hG h hh
            · rw [List.mem_singleton.mp hh]
              exact ⟨hgne, hgc⟩)
          (Or.inr ⟨by simp, by
            intro q hq
            rw [List.mem_singleton.mp hq]
            exact hp.1, by simp [joinStrs]⟩)
        exact ⟨G2, g2, a, b, c, by rw [d]; simp⟩
    · -- no flush: append the paragraph to the current buffer
      simp only [paraFold, if_neg h1, if_neg h2]
      rcases hbuf with ⟨hcc, hg⟩ | ⟨hgne, hgc, hcceq⟩
      · subst hcc
        subst hg
        obtain ⟨G2, g2, a, b, c, d⟩ := ih out ([] ++ p ++ nl2) pos G [p] hps'
          hout hG
          (Or.inr ⟨by simp, by
            intro q hq
            rw [List.mem_singleton.mp hq]
            exact hp.1, by simp [joinStrs]⟩)
        exact ⟨G2, g2, a, b, c, by rw [d]; simp⟩
      · have hcceq2 : cc ++ p ++ nl2 = joinStrs nl2 (g ++ [p]) ++ nl2 := by
          rw [hcceq, joinStrs_append_one g p hgne]
        obtain ⟨G2, g2, a, b, c, d⟩ := ih out (cc ++ p ++ nl2) pos G (g ++ [p]) hps'
          hout hG
          (Or.inr ⟨by simp, by
            intro q hq
            rcases List.mem_append.mp hq with hq | hq
            · exact hgc q hq
            · rw [List.mem_singleton.mp hq]
              exact hp.1, hcceq2⟩)
        exact ⟨G2, g2, a, b, c, by rw [d]; simp⟩

/-- splitIntoChunks on a blank-line join of clean paragraphs within budget
emits chunks whose texts are blank-line joins of non-empty clean groups
concatenating to the paragraph list. -/
theorem splitIntoChunks_groups (ps : List Str) (B : Nat)
    (h : ∀ p ∈ ps, cleanPara p = true ∧ estimateTokens p ≤ B) :
    ∃ G : List (List Str),
      (splitIntoChunks (joinStrs nl2 ps) B).map Chunk.text = G.map (joinStrs nl2) ∧
      (∀ h ∈ G, h ≠ [] ∧ ∀ q ∈ h, cleanPara q = true) ∧
      G.flatten = ps := by
  have hshape : ParaShape (joinStrs nl2 ps) ps :=
    ParaShape_joinStrs ps fun q hq => (h q hq).1
  have hparas : paragraphsOf (joinStrs nl2 ps) = ps := paragraphsOf_of_shape hshape
  obtain ⟨G2, g2, a, b, c, d⟩ := paraFold_groups B ps [] [] 0 [] [] h (by simp)
    (by simp) (Or.inl ⟨rfl, rfl⟩)
  simp only [splitIntoChunks, hparas]
  rcases c with ⟨hcc, hg⟩ | ⟨hgne, hgc, hcceq⟩
  · subst hg
    rw [hcc]
    rw [if_pos (by decide)]
    exact ⟨G2, a, b, by simpa using d⟩
  · rw [hcceq]
    have htr : trim (joinStrs nl2 g2 ++ nl2) = joinStrs nl2 g2 := by
      rw [trim_append_nl2, trim_joinStrs g2 hgne hgc]
    rw [if_neg (by
      rw [htr]
      simpa [List.isEmpty_iff] using joinStrs_ne_nil g2 hgne hgc)]
    refine ⟨G2 ++ [g2], ?_, ?_, ?_⟩
    · rw [List.map_append, List.map_append, a]
      simp [createChunk_text, htr]
    · intro h hh
      rcases List.mem_append.mp hh with hh | hh
      · exact b h hh
      · rw [List.mem_singleton.mp hh]
        exact ⟨hgne, hgc⟩
    · rw [List.flatten_append]
      simpa using d

/-- The reassembly payload of one chunk is its text padded by newline
runs. -/
theorem payload_decomp (c : Chunk) :
    ∃ a b : Nat,
      (if c.type = ChunkType.heading then nl2 ++ c.text ++ ['\n'] else c.text)
        = List.replicate a '\n' ++ c.text ++ List.replicate b '\n' := by
  by_cases hc : c.type = ChunkType.heading
  · exact ⟨2, 1, by rw [if_pos hc]; rfl⟩
  · exact ⟨0, 0, by rw [if_neg hc]; simp⟩

/-- The joined reassembly payload of chunks carrying clean groups is a
shaped core padded by newline runs. -/
theorem joinPayload_shape :
    ∀ (chunks : List Chunk) (G : List (List Str)), chunks ≠ [] →
      chunks.map Chunk.text = G.map (joinStrs nl2) →
      (∀ h ∈ G, h ≠ [] ∧ ∀ q ∈ h, cleanPara q = true) →
      ∃ (a b : Nat) (core : Str),
        joinStrs nl2 (chunks.map fun c =>
            if c.type = ChunkType.heading then nl2 ++ c.text ++ ['\n'] else c.text)
          = List.replicate a '\n' ++ core ++ List.replicate b '\n' ∧
        ParaShape core G.flatten ∧
        firstCharNotWS core = true ∧ firstCharNotWS core.reverse = true := by
  intro chunks
  match chunks with
  | [] => intro G h _ _; exact absurd rfl h
  | [c] =>
    intro G _ hmap hG
    rcases G with _ | ⟨h, G'⟩
    · simp at hmap
    · rcases G' with _ | ⟨h', G''⟩
      · have htext : c.text = joinStrs nl2 h := by simpa using hmap
        have hh := hG h (by simp)
        obtain ⟨a, b, hd⟩ := payload_decomp c
        refine ⟨a, b, joinStrs nl2 h, ?_, ?_, ?_, ?_⟩
        · rw [show (List.map (fun c => if c.type = ChunkType.heading
              then nl2 ++ c.text ++ ['\n'] else c.text) [c])
              = [if c.type = ChunkType.heading then nl2 ++ c.text ++ ['\n'] else c.text]
              from by simp]
          rw [show joinStrs nl2 [if c.type = ChunkType.heading
              then nl2 ++ c.text ++ ['\n'] else c.text]
              = (if c.type = ChunkType.heading then nl2 ++ c.text ++ ['\n'] else c.text)
              from rfl]
          rw [hd, htext]
        · simpa using ParaShape_joinStrs h hh.2
        · exact joinStrs_first h hh.1 hh.2
        · exact joinStrs_last h hh.1 hh.2
      · simp at hmap
  | c :: c2 :: cs =>
    intro G _ hmap hG
    rcases G with _ | ⟨h, G'⟩
    · simp at hmap
    · have hmap' : (c2 :: cs).map Chunk.text = G'.map (joinStrs nl2) := by
        simpa using congrArg List.tail hmap
      have htext : c.text = joinStrs nl2 h := by simpa using congrArg List.head? hmap
      have hG' : ∀ x ∈ G', x ≠ [] ∧ ∀ q ∈ x, cleanPara q = true :=
        fun x hx => hG x (List.mem_cons_of_mem h hx)
      have hh := hG h (by simp)
      obtain ⟨a', b', core', hjoin', hshape', hfst', hlst'⟩ :=
        joinPayload_shape (c2 :: cs) G' (by simp) hmap' hG'
      obtain ⟨a1, b1, hd⟩ := payload_decomp c
      have hGne : G' ≠ [] := by
        rcases G' with _ | _
        · simp at hmap'
        · simp
      have hflat : ∃ r rs, G'.flatten = r :: rs := by
        rcases G' with _ | ⟨h', G''⟩
        · exact absurd rfl hGne
        · have hne := (hG' h' (by simp)).1
          rcases h' with _ | ⟨x, xs⟩
          · exact absurd rfl hne
          · exact ⟨x, xs ++ G''.flatten, by simp⟩
      obtain ⟨r, rs, hflat⟩ := hflat
      refine ⟨a1, b', joinStrs nl2 h ++ List.replicate (b1 + 2 + a') '\n' ++ core',
        ?_, ?_, ?_, ?_⟩
      · have hstep : joinStrs nl2 ((c :: c2 :: cs).map fun x =>
            if x.type = ChunkType.heading then nl2 ++ x.text ++ ['\n'] else x.text)
            = (if c.type = ChunkType.heading then nl2 ++ c.text ++ ['\n'] else c.text)
              ++ nl2 ++ joinStrs nl2 ((c2 :: cs).map fun x =>
                if x.type = ChunkType.heading then nl2 ++ x.text ++ ['\n'] else x.text) := rfl
        rw [hstep, hd, htext, hjoin']
        rw [show b1 + 2 + a' = b1 + (2 + a') from by omega, List.replicate_add,
          List.replicate_add]
        simp [nl2, List.replicate]
      · rw [hflat] at hshape'
        have := ParaShape_append (ParaShape_joinStrs h hh.2) (b1 + 2 + a') (by omega)
          hshape' (by simpa using hh.1)
        rw [List.flatten_cons, hflat]
        simpa using this
      · rw [show joinStrs nl2 h ++ List.replicate (b1 + 2 + a') '\n' ++ core'
            = joinStrs nl2 h ++ (List.replicate (b1 + 2 + a') '\n' ++ core') from by simp,
          firstCharNotWS_append _ (joinStrs_ne_nil h hh.1 hh.2)]
        exact joinStrs_first h hh.1 hh.2
      · rw [List.reverse_append]
        rw [firstCharNotWS_append _ (by simpa using firstCharNotWS_ne_nil hlst')]
        exact hlst'

/-- Reassembling chunks that carry clean groups yields exactly the
concatenated groups as paragraphs. -/
theorem reassembleChunks_paragraphs (chunks : List Chunk) (G : List (List Str))
    (hmap : chunks.map Chunk.text = G.map (joinStrs nl2))
    (hG : ∀ h ∈ G, h ≠ [] ∧ ∀ q ∈ h, cleanPara q = true) :
    paragraphsOf (reassembleChunks chunks) = G.flatten := by
  rcases chunks with _ | ⟨c, cs⟩
  · have hGnil : G = [] := by
      rcases G with _ | _
      · rfl
      · simp at hmap
    subst hGnil
    decide
  · obtain ⟨a, b, core, hjoin, hshape, hfst, hlst⟩ :=
      joinPayload_shape (c :: cs) G (by simp) hmap hG
    unfold reassembleChunks
    rw [hjoin, show List.replicate a '\n' ++ core ++ List.replicate b '\n'
        = List.replicate a '\n' ++ (core ++ List.replicate b '\n') from by simp,
      trim_replicate_nl_front, trim_append_replicate_nl, trim_eq_self hfst hlst]
    exact paragraphsOf_of_shape hshape

/-- C5 amended: for a paragraph-only input of clean blank-line-separated
paragraphs each within the token budget, splitting then reassembling
preserves all paragraphs in order and content. -/
theorem splitIntoChunks_reassemble_roundtrip :
    ∀ (ps : List Str) (B : Nat),
      (∀ p ∈ ps, cleanPara p = true ∧ estimateTokens p ≤ B) →
      paragraphsOf (joinStrs nl2 ps) = ps ∧
      paragraphsOf (reassembleChunks (splitIntoChunks (joinStrs nl2 ps) B)) = ps := by
  intro ps B h
  refine ⟨paragraphsOf_of_shape (ParaShape_joinStrs ps fun q hq => (h q hq).1), ?_⟩
  obtain ⟨G, hmap, hG, hflat⟩ := splitIntoChunks_groups ps B h
  rw [reassembleChunks_paragraphs _ G hmap hG]
  exact hflat

/-- C5 counterexample: the clean one-paragraph input of two sentences
overflowing a budget of one token is reassembled as two paragraphs, so the
original paragraph is not preserved. -/
theorem splitIntoChunks_reassemble_counterexample :
    cleanPara "aa. bb.".toList = true ∧
    paragraphsOf paraCexText = ["aa. bb.".toList] ∧
    paragraphsOf (reassembleChunks (splitIntoChunks paraCexText 1))
      ≠ ["aa. bb.".toList] := by
  decide

/-- Witness for C5 on a single short paragraph within a budget of five. -/
theorem splitIntoChunks_reassemble_roundtrip_witness :
    paragraphsOf (joinStrs nl2 ["hi".toList]) = ["hi".toList] ∧
    paragraphsOf (reassembleChunks (splitIntoChunks (joinStrs nl2 ["hi".toList]) 5))
      = ["hi".toList] :=
  splitIntoChunks_reassemble_roundtrip ["hi".toList] 5 (by decide)

end GuidedTranslator
